import Mathlib

/-!
Verification development for the TravelMind agent-pipeline core.

The repository ships the frontend components (`PlanningForm.js`,
`LoadingScreen.js` with `ItineraryView` and the index page) and the project
documentation; the backend Python modules (`utils.py`, `plan_enhancer.py`,
`orchestrator.py`, `api_streaming.py`) are documented in the spec and the
README but their sources are not part of this tree.  Backend behaviour is
therefore modelled from the spec (each such definition carries a
`Modelled from the spec:` doc comment), while the frontend logic is embedded
directly from the JavaScript sources.
-/

namespace TravelMind

/-! ## ResilientJSONExtractor (spec §4.1)

Modelled from the spec: `backend/utils.py` (JSON parsing utilities) is not in
the tree.  The extractor is a pure pipeline of total functions over the raw
text: strict parse, fenced-code-block parse, first-balanced-span parse, light
repair, and an explicit failure carrying the raw text. -/

/-- Modelled from the spec: the structured value recovered from model text
(strict structured data: objects/arrays with nested strings, numbers,
booleans and null). -/
inductive JsonVal where
  | null
  | bool (b : Bool)
  | num (n : Nat)
  | str (s : String)
  | arr (elems : List JsonVal)
  | obj (members : List (String × JsonVal))

/-- Whitespace recognised by the tokenizer. -/
def isWsChar (c : Char) : Bool := c == ' ' || c == '\n' || c == '\t' || c == '\r'

/-- Drop leading whitespace. -/
def skipWs : List Char → List Char
  | [] => []
  | c :: cs => if isWsChar c then skipWs cs else c :: cs

/-- Decimal digit test. -/
def isDigitChar (c : Char) : Bool := '0' ≤ c && c ≤ '9'

/-- Numeric value of a digit-character list. -/
def digitsVal (ds : List Char) : Nat :=
  ds.foldl (fun acc c => acc * 10 + (c.toNat - '0'.toNat)) 0

/-- Parse the body of a string literal after the opening quote.  The flag
records that the previous character was a backslash, whose follower is taken
verbatim. -/
def strBody : Bool → List Char → Option (List Char × List Char)
  | _, [] => none
  | true, c :: cs => (strBody false cs).map (fun p => (c :: p.1, p.2))
  | false, c :: cs =>
    if c = '"' then some ([], cs)
    else if c = '\\' then strBody true cs
    else (strBody false cs).map (fun p => (c :: p.1, p.2))

/-- Parse a maximal run of decimal digits into a number. -/
def parseDigits (cs : List Char) : Option (Nat × List Char) :=
  let ds := cs.takeWhile isDigitChar
  if ds.isEmpty then none else some (digitsVal ds, cs.dropWhile isDigitChar)

/-- Consume an expected literal character sequence. -/
def stripLit : List Char → List Char → Option (List Char)
  | [], cs => some cs
  | p :: ps, c :: cs => if c = p then stripLit ps cs else none
  | _ :: _, [] => none

mutual

/-- Fuel-bounded recursive-descent parser for one structured value. -/
def parseValue : Nat → List Char → Option (JsonVal × List Char)
  | 0, _ => none
  | fuel + 1, cs =>
    match skipWs cs with
    | [] => none
    | c :: rest =>
      if c = '{' then (parseMembers fuel rest).map (fun p => (JsonVal.obj p.1, p.2))
      else if c = '[' then (parseElems fuel rest).map (fun p => (JsonVal.arr p.1, p.2))
      else if c = '"' then (strBody false rest).map (fun p => (JsonVal.str (String.mk p.1), p.2))
      else if c = 't' then (stripLit ['r', 'u', 'e'] rest).map (fun r => (JsonVal.bool true, r))
      else if c = 'f' then (stripLit ['a', 'l', 's', 'e'] rest).map (fun r => (JsonVal.bool false, r))
      else if c = 'n' then (stripLit ['u', 'l', 'l'] rest).map (fun r => (JsonVal.null, r))
      else if isDigitChar c then (parseDigits (c :: rest)).map (fun p => (JsonVal.num p.1, p.2))
      else none

/-- Parse array elements after the opening bracket, consuming the closing
bracket. -/
def parseElems : Nat → List Char → Option (List JsonVal × List Char)
  | 0, _ => none
  | fuel + 1, cs =>
    match skipWs cs with
    | [] => none
    | c :: rest =>
      if c = ']' then some ([], rest)
      else
        match parseValue fuel (c :: rest) with
        | none => none
        | some (v, r1) =>
          match skipWs r1 with
          | [] => none
          | d :: r2 =>
            if d = ',' then (parseElems fuel r2).map (fun p => (v :: p.1, p.2))
            else if d = ']' then some ([v], r2)
            else none

/-- Parse object members after the opening brace, consuming the closing
brace. -/
def parseMembers : Nat → List Char → Option (List (String × JsonVal) × List Char)
  | 0, _ => none
  | fuel + 1, cs =>
    match skipWs cs with
    | [] => none
    | c :: rest =>
      if c = '}' then some ([], rest)
      else if c = '"' then
        match strBody false rest with
        | none => none
        | some (k, r1) =>
          match skipWs r1 with
          | [] => none
          | d :: r2 =>
            if d = ':' then
              match parseValue fuel r2 with
              | none => none
              | some (v, r3) =>
                match skipWs r3 with
                | [] => none
                | e :: r4 =>
                  if e = ',' then (parseMembers fuel r4).map (fun p => ((String.mk k, v) :: p.1, p.2))
                  else if e = '}' then some ([(String.mk k, v)], r4)
                  else none
            else none
      else none

end

/-- Fuel budget ample for any value occupying the given characters. -/
def jsonFuel (cs : List Char) : Nat := 2 * cs.length + 2

/-- Strategy 1: parse the entire text as strict structured data (an object or
array covering the whole input up to surrounding whitespace). -/
def parseStrictChars (cs : List Char) : Option JsonVal :=
  match skipWs cs with
  | [] => none
  | c :: rest =>
    if c = '{' ∨ c = '[' then
      match parseValue (jsonFuel cs) (c :: rest) with
      | some (v, r) => if skipWs r = [] then some v else none
      | none => none
    else none

/-- String-level wrapper for strategy 1. -/
def parseStrict (s : String) : Option JsonVal := parseStrictChars s.data

/-- The fence marker character (a backtick). -/
def isTick (c : Char) : Bool := c.toNat == 96

/-- Characters following the first triple-backtick marker, if any. -/
def afterFence : List Char → Option (List Char)
  | [] => none
  | c :: cs =>
    if isTick c then
      match cs with
      | c2 :: c3 :: rest => if isTick c2 && isTick c3 then some rest else afterFence cs
      | _ => none
    else afterFence cs

/-- Drop the language-tag line of a fenced block (everything through the
first newline). -/
def dropLine : List Char → List Char
  | [] => []
  | c :: cs => if c = '\n' then cs else dropLine cs

/-- Characters before the closing triple-backtick marker, if present. -/
def untilFence : List Char → Option (List Char)
  | [] => none
  | c :: cs =>
    if isTick c then
      match cs with
      | c2 :: c3 :: _ => if isTick c2 && isTick c3 then some [] else none
      | _ => none
    else (untilFence cs).map (fun r => c :: r)

/-- Strategy 2: locate a fenced code block and parse its contents. -/
def parseFenced (s : String) : Option JsonVal :=
  match afterFence s.data with
  | none => none
  | some afterTicks =>
    match untilFence (dropLine afterTicks) with
    | none => none
    | some content => parseStrictChars content

/-- The suffix starting at the first opening brace or bracket. -/
def fromFirstOpen : List Char → Option (List Char)
  | [] => none
  | c :: cs => if c = '{' ∨ c = '[' then some (c :: cs) else fromFirstOpen cs

/-- Strategy 3: parse the first balanced brace/bracket span (realised by
running the string-aware value parser from the first opening bracket). -/
def parseSpan (s : String) : Option JsonVal :=
  match fromFirstOpen s.data with
  | none => none
  | some cs =>
    match parseValue (jsonFuel s.data) cs with
    | some (v, _) => some v
    | none => none

/-- Light repair, step 1: drop commas whose next non-space character closes a
brace or bracket. -/
def stripTrailingCommas : List Char → List Char
  | [] => []
  | c :: cs =>
    if c = ',' then
      match skipWs cs with
      | d :: _ => if d = '}' ∨ d = ']' then stripTrailingCommas cs else c :: stripTrailingCommas cs
      | [] => c :: stripTrailingCommas cs
    else c :: stripTrailingCommas cs

/-- Light repair, step 2: closers still owed after scanning the text,
tracking a stack of expected closing characters. -/
def missingClosers : List Char → List Char → List Char
  | stack, [] => stack
  | stack, c :: cs =>
    if c = '{' then missingClosers ('}' :: stack) cs
    else if c = '[' then missingClosers (']' :: stack) cs
    else if c = '}' ∨ c = ']' then
      match stack with
      | _ :: stack2 => missingClosers stack2 cs
      | [] => missingClosers [] cs
    else missingClosers stack cs

/-- Strategy 4: apply light repair (strip trailing commas, close
unterminated brackets) and retry the span parse. -/
def parseRepaired (s : String) : Option JsonVal :=
  let repaired := stripTrailingCommas s.data ++ missingClosers [] (stripTrailingCommas s.data)
  match fromFirstOpen repaired with
  | none => none
  | some cs =>
    match parseValue (jsonFuel repaired) cs with
    | some (v, _) => some v
    | none => none

/-- Tagged result of extraction: a structured value or an explicit failure
carrying the raw text. -/
inductive ExtractResult where
  | ok (v : JsonVal)
  | failure (raw : String)

/-- Modelled from the spec: `extract(raw_text)` applies the five strategies
in order — strict parse, fenced block, first balanced span, light repair,
explicit failure — and the first success wins. -/
def extract (raw : String) : ExtractResult :=
  match parseStrict raw with
  | some v => ExtractResult.ok v
  | none =>
    match parseFenced raw with
    | some v => ExtractResult.ok v
    | none =>
      match parseSpan raw with
      | some v => ExtractResult.ok v
      | none =>
        match parseRepaired raw with
        | some v => ExtractResult.ok v
        | none => ExtractResult.failure raw

/-- The remainder condition under which a parse extends to a longer input:
either the parser stopped at a real delimiter, or the value is
self-delimiting (brace or bracket). -/
def selfDelim (cs : List Char) : Prop :=
  ∃ c r, skipWs cs = c :: r ∧ (c = '{' ∨ c = '[')

/-! ## DualModelCoordinator (spec §4.2)

Modelled from the spec: `backend/agents/plan_enhancer.py` is not in the
tree.  The coordinator awaits the secondary (HuggingFace) model under a
timeout, falls back to empty insights on timeout or error, always passes a
present insights argument to the primary (GPT) structuring call, and lists
the secondary model in the metadata only when it returned usable text. -/

/-- Modelled from the spec (§3): tagged outcome of a ModelGateway call —
success, timeout, or error; never silently coerced to a default. -/
inductive ModelInvocationResult where
  | success (text : String)
  | timeout
  | error (cause : String)

/-- The arguments the primary structuring call receives.  `insights` is an
`Option` so that "present but empty" and "missing" are distinguishable. -/
structure PrimaryCallArgs where
  existing_plan : String
  destination : String
  constraints : String
  action : String
  insights : Option String

/-- The coordinator's result: the recorded primary-call arguments plus the
model-usage metadata attached to the enhanced plan. -/
structure EnhancementResult where
  primaryArgs : PrimaryCallArgs
  models_used : List String
  dual_model_enhancement : Bool

/-- Name of the primary structuring model (README §Key Technologies). -/
def primaryModelName : String := "gpt-4o-mini"

/-- Name of the secondary insight model (README §Key Technologies). -/
def secondaryModelName : String := "travel-agent-8b-v2"

/-- Modelled from the spec (§4.2): `enhance` starts the secondary call under
its timeout; on success its text becomes the insights context and both
models are listed, on timeout or error the insights degrade to the empty
string (still present) and only the primary model is listed. -/
def enhance (secondary : ModelInvocationResult)
    (existing_plan destination constraints action : String) : EnhancementResult :=
  match secondary with
  | ModelInvocationResult.success t =>
    { primaryArgs :=
        { existing_plan := existing_plan, destination := destination,
          constraints := constraints, action := action, insights := some t }
      models_used := [primaryModelName, secondaryModelName]
      dual_model_enhancement := true }
  | ModelInvocationResult.timeout =>
    { primaryArgs :=
        { existing_plan := existing_plan, destination := destination,
          constraints := constraints, action := action, insights := some "" }
      models_used := [primaryModelName]
      dual_model_enhancement := false }
  | ModelInvocationResult.error _ =>
    { primaryArgs :=
        { existing_plan := existing_plan, destination := destination,
          constraints := constraints, action := action, insights := some "" }
      models_used := [primaryModelName]
      dual_model_enhancement := false }

/-! ## PlanOrchestrator (spec §4.3)

Modelled from the spec: `backend/orchestrator.py` is not in the tree.  The
discover pipeline is a state machine over the requested detail level:
ConstraintParser, then DestinationRecommender, then — only beyond
`high_level` — ItineraryPlanner, and only at `full` — DetailEnricher. -/

/-- The pipeline stages (spec §2 StageAgents). -/
inductive Stage where
  | constraintParser
  | destinationRecommender
  | itineraryPlanner
  | detailEnricher
deriving DecidableEq

/-- Client-requested depth of the discover pipeline. -/
inductive DetailLevel where
  | high_level
  | medium
  | full
deriving DecidableEq

/-- Stubbable stage implementations; constraints, outlines and itineraries
are treated as opaque blobs, destinations as a ranked list. -/
structure StageImpls where
  parseConstraints : String → String
  recommend : String → List String
  planItinerary : String → String → String
  enrichDetails : String → String

/-- Terminal result of one discover-mode orchestration run. -/
inductive PlanResult where
  | destinations (ranked : List String)
  | outline (skeleton : String)
  | fullItinerary (detailed : String)

/-- Modelled from the spec (§4.3): the discover path of
`Orchestrator.generate_plan`, returning the terminal result together with
the list of stages invoked, in invocation order. -/
def generate_plan (impls : StageImpls) (level : DetailLevel) (userInput : String) :
    PlanResult × List Stage :=
  let constraints := impls.parseConstraints userInput
  let dests := impls.recommend constraints
  match level with
  | DetailLevel.high_level =>
    (PlanResult.destinations dests, [Stage.constraintParser, Stage.destinationRecommender])
  | DetailLevel.medium =>
    let skeleton := impls.planItinerary constraints (dests.headD "")
    (PlanResult.outline skeleton,
      [Stage.constraintParser, Stage.destinationRecommender, Stage.itineraryPlanner])
  | DetailLevel.full =>
    let skeleton := impls.planItinerary constraints (dests.headD "")
    (PlanResult.fullItinerary (impls.enrichDetails skeleton),
      [Stage.constraintParser, Stage.destinationRecommender, Stage.itineraryPlanner,
        Stage.detailEnricher])

/-! ## ProgressiveEnrichmentStreamer (spec §4.4)

Modelled from the spec: `backend/api_streaming.py` is not in the tree.  The
streamer walks a stored plan and emits one self-describing event per
enrichment unit — the to-destination transportation leg, each activity in
(day, activity) order, the back-home leg — followed by one completion
marker.  A failed unit is converted to a placeholder payload and the stream
continues. -/

/-- A discrete server-sent event, matching the tagged shapes consumed by
`handleProgressiveEnrichment` in `frontend/components/LoadingScreen.js`
(status `activity_enriched` with optional `transport_to`/`transport_back`
type, `complete`, or an error payload). -/
inductive StreamEvent where
  | activityEnriched (day activity : Nat) (data : String)
  | transportTo (data : String)
  | transportBack (data : String)
  | complete
  | errorEvent (message : String)
deriving DecidableEq

/-- The event kinds of the streaming contract (spec §6). -/
inductive EventKind where
  | activity_enriched
  | transport_to_enriched
  | transport_back_enriched
  | completeMark
  | errorMark
deriving DecidableEq

/-- The tag carried by an event. -/
def kindOf : StreamEvent → EventKind
  | StreamEvent.activityEnriched _ _ _ => EventKind.activity_enriched
  | StreamEvent.transportTo _ => EventKind.transport_to_enriched
  | StreamEvent.transportBack _ => EventKind.transport_back_enriched
  | StreamEvent.complete => EventKind.completeMark
  | StreamEvent.errorEvent _ => EventKind.errorMark

/-- The key of an enrichment unit: a (day, activity) pair or a
transportation-leg identifier. -/
inductive UnitKey where
  | act (day activity : Nat)
  | legTo
  | legBack
deriving DecidableEq

/-- The unit key carried by an event (`none` for the completion and error
markers, which enrich nothing). -/
def eventKey : StreamEvent → Option UnitKey
  | StreamEvent.activityEnriched d a _ => some (UnitKey.act d a)
  | StreamEvent.transportTo _ => some UnitKey.legTo
  | StreamEvent.transportBack _ => some UnitKey.legBack
  | StreamEvent.complete => none
  | StreamEvent.errorEvent _ => none

/-- The enrichment payload carried by an event. -/
def eventPayload : StreamEvent → Option String
  | StreamEvent.activityEnriched _ _ data => some data
  | StreamEvent.transportTo data => some data
  | StreamEvent.transportBack data => some data
  | StreamEvent.complete => none
  | StreamEvent.errorEvent _ => none

/-- Modelled from the spec (§4.4): the placeholder payload substituted for a
failed unit. -/
def placeholderPayload : String := "details unavailable, retry"

/-- The payload emitted for unit (d, a): the enrichment result if the unit
succeeded, the placeholder if it failed. -/
def enrichOutcome (f : Nat → Nat → Option String) (d a : Nat) : String :=
  (f d a).getD placeholderPayload

/-- Events for the activities of one day, indices starting at `a`. -/
def dayEvents {α : Type} (f : Nat → Nat → Option String) (d : Nat) :
    Nat → List α → List StreamEvent
  | _, [] => []
  | a, _ :: acts => StreamEvent.activityEnriched d a (enrichOutcome f d a) :: dayEvents f d (a + 1) acts

/-- Activity events for all days, day indices starting at `d`, in
(day, activity) lexicographic order. -/
def activityEventsFrom {α : Type} (f : Nat → Nat → Option String) :
    Nat → List (List α) → List StreamEvent
  | _, [] => []
  | d, acts :: days => dayEvents f d 0 acts ++ activityEventsFrom f (d + 1) days

/-- Modelled from the spec (§4.4): the full event stream for a stored plan —
transportation-to first, activities in (day, activity) order, transportation
back, then the completion marker.  `f` gives each activity unit's enrichment
outcome; `tTo`/`tBack` those of the two transportation legs. -/
def streamEvents {α : Type} (plan : List (List α)) (f : Nat → Nat → Option String)
    (tTo tBack : Option String) : List StreamEvent :=
  StreamEvent.transportTo (tTo.getD placeholderPayload) ::
    activityEventsFrom f 0 plan ++
    [StreamEvent.transportBack (tBack.getD placeholderPayload), StreamEvent.complete]

/-- Number of activities of a stored plan. -/
def totalActivities {α : Type} (plan : List (List α)) : Nat :=
  (plan.map List.length).sum

/-- The (day, activity) pairs of the activity-enrichment events of a
stream. -/
def actPairs (evs : List StreamEvent) : List (Nat × Nat) :=
  evs.filterMap fun ev =>
    match ev with
    | StreamEvent.activityEnriched d a _ => some (d, a)
    | _ => none

/-! ## Frontend streaming consumer and enrichment cache
(`frontend/components/LoadingScreen.js`, `ItineraryView`) -/

/-- The string key `dayIdx_actIdx` used by the frontend for the enrichment
hash table. -/
def jsKey (d a : Nat) : String := Nat.repr d ++ "_" ++ Nat.repr a

/-- Functional update of a string-keyed map, as the JS object spread
`\x7b ...prev, [key]: v \x7d`. -/
def setKey (m : String → Option String) (k : String) (v : String) :
    String → Option String :=
  fun k2 => if k2 = k then some v else m k2

/-- The component state of `ItineraryView` that the streaming handler
touches. -/
structure ViewState where
  enrichedActivities : String → Option String
  expandedActivities : String → Bool
  transportationTo : Option String
  transportationBack : Option String
  isEnriching : Bool
  errorAlert : Option String

/-- The initial component state. -/
def initialView : ViewState :=
  { enrichedActivities := fun _ => none
    expandedActivities := fun _ => false
    transportationTo := none
    transportationBack := none
    isEnriching := true
    errorAlert := none }

/-- The `eventSource.onmessage` handler of `handleProgressiveEnrichment`:
transport events set the corresponding field, activity events store the
payload under the `day_activity` key and expand the activity, `complete`
ends the enriching state, an error ends it with an alert. -/
def onMessage (st : ViewState) (ev : StreamEvent) : ViewState :=
  match ev with
  | StreamEvent.activityEnriched d a data =>
    { st with
      enrichedActivities := setKey st.enrichedActivities (jsKey d a) data
      expandedActivities := fun k2 => if k2 = jsKey d a then true else st.expandedActivities k2 }
  | StreamEvent.transportTo data => { st with transportationTo := some data }
  | StreamEvent.transportBack data => { st with transportationBack := some data }
  | StreamEvent.complete => { st with isEnriching := false }
  | StreamEvent.errorEvent m => { st with isEnriching := false, errorAlert := some m }

/-- Replay a sequence of received events against a component state. -/
def replay (st : ViewState) (evs : List StreamEvent) : ViewState :=
  evs.foldl onMessage st

/-- `enrichSingleActivity` of `ItineraryView`: if the key is already
enriched, only the expansion flag is toggled and the cached payload is kept;
otherwise the fetched payload is stored and the activity expanded. -/
def enrichSingleActivity (st : ViewState) (dayIdx actIdx : Nat) (fetched : String) :
    ViewState :=
  if (st.enrichedActivities (jsKey dayIdx actIdx)).isSome then
    { st with
      expandedActivities := fun k2 =>
        if k2 = jsKey dayIdx actIdx then !(st.expandedActivities k2)
        else st.expandedActivities k2 }
  else
    { st with
      enrichedActivities := setKey st.enrichedActivities (jsKey dayIdx actIdx) fetched
      expandedActivities := fun k2 =>
        if k2 = jsKey dayIdx actIdx then true else st.expandedActivities k2 }

/-! ### Replay lemmas: the consumer state is determined by the events'
self-carried keys, independently of arrival order. -/

/-- The `day_activity` string keys of the activity events of a stream, in
emission order. -/
def strKeys (evs : List StreamEvent) : List String :=
  evs.filterMap fun ev =>
    match ev with
    | StreamEvent.activityEnriched d a _ => some (jsKey d a)
    | _ => none

/-- The payloads of the transport-to events of a stream. -/
def toPayloads (evs : List StreamEvent) : List String :=
  evs.filterMap fun ev =>
    match ev with
    | StreamEvent.transportTo p => some p
    | _ => none

/-- The payloads of the transport-back events of a stream. -/
def backPayloads (evs : List StreamEvent) : List String :=
  evs.filterMap fun ev =>
    match ev with
    | StreamEvent.transportBack p => some p
    | _ => none

/-! ### Per-unit failure recovery (C8) -/

/-- The failure-independent shape of an event: its kind and unit key. -/
def eventShape (ev : StreamEvent) : EventKind × Option UnitKey := (kindOf ev, eventKey ev)

/-! ## Alternatives rounds and the rejected-destinations set
(`handleGetAlternatives` in the index page of the frontend, plus the
spec-modelled recommender exclusion) -/

/-- The `name, country` identity string the frontend builds for a
destination. -/
def destKey (name country : String) : String := name ++ ", " ++ country

/-- The session state an alternatives round reads: the accumulated rejected
list and the currently chosen destination of the displayed plan. -/
structure AltState where
  rejected : List String
  current : String × String

/-- What one round produces besides the new state: the exclusion list sent
with the request, and the recommendations that came back. -/
structure RoundLog where
  requestRejected : List String
  recommendations : List (String × String)

/-- Modelled from the spec: `DestinationRecommender` never re-recommends a
destination whose (name, country) identity is in the rejected set passed
with the constraints. -/
def recommendExcluding (pool : List (String × String)) (rejected : List String) :
    List (String × String) :=
  pool.filter (fun dst => !(rejected.contains (destKey dst.1 dst.2)))

/-- One alternatives round, from `handleGetAlternatives`: the current
destination's key is appended to the rejected list, the request carries the
extended list, the recommender answers excluding it, and the user picks
`next` as the new current destination. -/
def altRound (st : AltState) (pool : List (String × String)) (next : String × String) :
    AltState × RoundLog :=
  let rejReq := st.rejected ++ [destKey st.current.1 st.current.2]
  ({ rejected := rejReq, current := next },
    { requestRejected := rejReq, recommendations := recommendExcluding pool rejReq })

/-- A session of alternatives rounds; each round supplies the recommender's
candidate pool and the destination the user picks next. -/
def runRounds : AltState → List (List (String × String) × (String × String)) →
    AltState × List RoundLog
  | st, [] => (st, [])
  | st, (pool, next) :: rest =>
    ((runRounds (altRound st pool next).1 rest).1,
      (altRound st pool next).2 :: (runRounds (altRound st pool next).1 rest).2)

/-- The destinations chosen at some point before (or entering) round `j`:
the session's starting destination and the picks of rounds `0..j-1`. -/
def chosenBefore (st0 : AltState)
    (rounds : List (List (String × String) × (String × String))) (j : Nat) :
    List (String × String) :=
  st0.current :: (rounds.take j).map (fun r => r.2)

/-! ## PlanningForm.handleSubmit (`frontend/components/PlanningForm.js`)

The submit handler builds the request object for `POST /api/plan` — dates
joined as `start to end` when both are set, the budget from the custom
amount or the selected range, interests split on commas — and then deletes
every key whose value is `undefined` or the empty string.  A JS `undefined`
is modelled as `none`; an exception (the lookup `budgetRanges[range].value`
with an unmapped range) aborts the submit, so no body is produced. -/

/-- A JSON-able value of the request body. -/
inductive JVal where
  | str (s : String)
  | num (q : Rat)
  | strList (xs : List String)
deriving DecidableEq

/-- The form state of `PlanningForm` (all inputs are strings; an unset
`travel_range` is the empty string, as an absent key is falsy in JS). -/
structure FormData where
  start_date : String
  end_date : String
  departure_city : String
  budget_range : String
  budget_custom : String
  travel_style : String
  travel_range : String
  interests : String
  pace : String
  group_type : String
  detail_level : String
  specific_destination : String
  existing_plan : String
  plan_action : String

/-- The two form modes. -/
inductive PlanMode where
  | discover
  | custom
deriving DecidableEq

/-- The numeric values of the `budgetRanges` table; `none` for keys the
table does not map (including `custom`, whose lookup throws in JS). -/
def budgetRanges (key : String) : Option Rat :=
  if key = "$" then some 1500
  else if key = "$$" then some 3500
  else if key = "$$$" then some 6000
  else if key = "$$$$" then some 10000
  else none

/-- `budget_custom ? parseFloat(budget_custom) : budget_range ?
budgetRanges[budget_range].value : undefined`; an unmapped range key throws
(`Except.error`). -/
def computeBudget (pf : String → Rat) (fd : FormData) : Except Unit (Option Rat) :=
  if fd.budget_custom ≠ "" then Except.ok (some (pf fd.budget_custom))
  else if fd.budget_range ≠ "" then
    match budgetRanges fd.budget_range with
    | some v => Except.ok (some v)
    | none => Except.error ()
  else Except.ok none

/-- The `dates` string: `start to end` when both dates are set, otherwise
empty. -/
def datesField (fd : FormData) : String :=
  if fd.start_date ≠ "" ∧ fd.end_date ≠ "" then fd.start_date ++ " to " ++ fd.end_date
  else ""

/-- The interests list: comma-split and trimmed, empty for an empty
input. -/
def interestsList (fd : FormData) : List String :=
  if fd.interests = "" then [] else (fd.interests.splitOn ",").map String.trim

/-- The submit object before cleanup, keys in source order; `none` is JS
`undefined`. -/
def submitEntriesBase (fd : FormData) (budget : Option Rat) :
    List (String × Option JVal) :=
  [("dates", if datesField fd = "" then none else some (JVal.str (datesField fd))),
    ("departure_city",
      if fd.departure_city = "" then none else some (JVal.str fd.departure_city)),
    ("budget", budget.map JVal.num),
    ("travel_style", some (JVal.str fd.travel_style)),
    ("travel_range", if fd.travel_range = "" then none else some (JVal.str fd.travel_range)),
    ("interests", some (JVal.strList (interestsList fd))),
    ("pace", some (JVal.str fd.pace)),
    ("group_type", some (JVal.str fd.group_type)),
    ("detail_level", some (JVal.str fd.detail_level))]

/-- The submit object including the custom-mode fields. -/
def submitEntries (mode : PlanMode) (fd : FormData) (budget : Option Rat) :
    List (String × Option JVal) :=
  match mode with
  | PlanMode.discover => submitEntriesBase fd budget
  | PlanMode.custom =>
    submitEntriesBase fd budget ++
      [("specific_destination", some (JVal.str fd.specific_destination)),
        ("existing_plan", some (JVal.str fd.existing_plan)),
        ("plan_action", some (JVal.str fd.plan_action))]

/-- The cleanup loop: delete every key whose value is `undefined` or the
empty string. -/
def cleanedBody (entries : List (String × Option JVal)) : List (String × JVal) :=
  entries.filterMap fun e =>
    match e.2 with
    | none => none
    | some v => if v = JVal.str "" then none else some (e.1, v)

/-- `handleSubmit`: compute the budget (an unmapped range key throws and no
request is sent), assemble the submit object, delete undefined and
empty-string values, and send the result. -/
def handleSubmit (pf : String → Rat) (mode : PlanMode) (fd : FormData) :
    Option (List (String × JVal)) :=
  match computeBudget pf fd with
  | Except.error _ => none
  | Except.ok budget => some (cleanedBody (submitEntries mode fd budget))

/-- A concrete form state: both dates set, a `$$` budget range, no custom
amount. -/
def sampleForm : FormData :=
  { start_date := "2024-06-15", end_date := "2024-06-22", departure_city := "NYC",
    budget_range := "$$", budget_custom := "", travel_style := "adventure",
    travel_range := "", interests := "hiking, food", pace := "moderate",
    group_type := "solo", detail_level := "full", specific_destination := "",
    existing_plan := "", plan_action := "enhance" }

/-! ## Theorems -/

/-! ### Extractor lemmas -/

theorem skipWs_append_cons :
    ∀ {xs : List Char} {c : Char} {r : List Char}, skipWs xs = c :: r →
      ∀ ys, skipWs (xs ++ ys) = c :: (r ++ ys) := by
  intro xs
  induction xs with
  | nil => intro c r h ys; simp [skipWs] at h
  | cons x xs ih =>
    intro c r h ys
    by_cases hw : isWsChar x
    · simp only [skipWs, hw, if_true] at h
      simpa [skipWs, hw] using ih h ys
    · simp only [skipWs, hw, if_false] at h
      obtain ⟨rfl, rfl⟩ := List.cons.inj h
      simp [skipWs, hw]

theorem skipWs_append_nil :
    ∀ {xs : List Char}, skipWs xs = [] → ∀ ys, skipWs (xs ++ ys) = skipWs ys := by
  intro xs
  induction xs with
  | nil => intro _ ys; simp
  | cons x xs ih =>
    intro h ys
    by_cases hw : isWsChar x
    · simp only [skipWs, hw, if_true] at h
      simpa [skipWs, hw] using ih h ys
    · simp [skipWs, hw] at h

theorem strBody_append :
    ∀ (cs : List Char) (esc : Bool) (s r : List Char), strBody esc cs = some (s, r) →
      ∀ ys, strBody esc (cs ++ ys) = some (s, r ++ ys) := by
  intro cs
  induction cs with
  | nil => intro esc s r h ys; cases esc <;> simp [strBody] at h
  | cons c cs ih =>
    intro esc s r h ys
    rw [List.cons_append]
    cases esc with
    | true =>
      simp only [strBody] at h ⊢
      obtain ⟨⟨s1, r1⟩, hp, heq⟩ := Option.map_eq_some'.mp h
      cases heq
      rw [ih false s1 r1 hp ys]
      rfl
    | false =>
      by_cases hq : c = '"'
      · simp only [strBody, hq, if_true] at h ⊢
        obtain ⟨rfl, rfl⟩ := Prod.mk.injEq .. ▸ Option.some.inj h
        rfl
      · by_cases hb : c = '\\'
        · simp only [strBody, hq, hb, if_true, if_false] at h ⊢
          exact ih true s r h ys
        · simp only [strBody, hq, hb, if_false] at h ⊢
          obtain ⟨⟨s1, r1⟩, hp, heq⟩ := Option.map_eq_some'.mp h
          cases heq
          rw [ih false s1 r1 hp ys]
          rfl

theorem dropWhile_cons_append {p : Char → Bool} :
    ∀ {cs : List Char} {d : Char} {r : List Char}, cs.dropWhile p = d :: r →
      ∀ ys, (cs ++ ys).takeWhile p = cs.takeWhile p ∧
        (cs ++ ys).dropWhile p = d :: (r ++ ys) := by
  intro cs
  induction cs with
  | nil =>
    intro d r h ys
    simp [List.dropWhile] at h
  | cons c cs ih =>
    intro d r h ys
    by_cases hp : p c
    · simp only [List.dropWhile, hp] at h
      obtain ⟨h1, h2⟩ := ih h ys
      constructor
      · simp [List.takeWhile, hp, h1]
      · simpa [List.dropWhile, hp] using h2
    · simp only [List.dropWhile, hp] at h
      simp at h
      obtain ⟨rfl, rfl⟩ := h
      constructor
      · simp [List.takeWhile, hp]
      · simp [List.dropWhile, hp]

theorem parseDigits_append {cs : List Char} {n : Nat} {d : Char} {r : List Char}
    (h : parseDigits cs = some (n, d :: r)) (ys : List Char) :
    parseDigits (cs ++ ys) = some (n, d :: (r ++ ys)) := by
  simp only [parseDigits] at h ⊢
  by_cases he : (cs.takeWhile isDigitChar).isEmpty
  · simp [he] at h
  · rw [if_neg he] at h
    have hinj := Option.some.inj h
    have h1 : digitsVal (cs.takeWhile isDigitChar) = n := congrArg Prod.fst hinj
    have h2 : cs.dropWhile isDigitChar = d :: r := congrArg Prod.snd hinj
    obtain ⟨ht, hd⟩ := dropWhile_cons_append h2 ys
    rw [ht, hd, if_neg he, h1]

theorem stripLit_append :
    ∀ (ps cs : List Char) {r : List Char}, stripLit ps cs = some r →
      ∀ ys, stripLit ps (cs ++ ys) = some (r ++ ys) := by
  intro ps
  induction ps with
  | nil =>
    intro cs r h ys
    simp only [stripLit] at h ⊢
    obtain rfl := Option.some.inj h
    rfl
  | cons p ps ih =>
    intro cs r h ys
    cases cs with
    | nil => simp [stripLit] at h
    | cons c cs =>
      by_cases hc : c = p
      · simp only [stripLit, hc, if_true] at h ⊢
        exact ih cs h ys
      · simp [stripLit, hc] at h

theorem parse_ext :
    ∀ fuel : Nat,
    (∀ cs v r ys, parseValue fuel cs = some (v, r) → (r ≠ [] ∨ selfDelim cs) →
       parseValue fuel (cs ++ ys) = some (v, r ++ ys))
  ∧ (∀ cs es r ys, parseElems fuel cs = some (es, r) →
       parseElems fuel (cs ++ ys) = some (es, r ++ ys))
  ∧ (∀ cs ms r ys, parseMembers fuel cs = some (ms, r) →
       parseMembers fuel (cs ++ ys) = some (ms, r ++ ys)) := by
  intro fuel
  induction fuel with
  | zero =>
    refine ⟨?_, ?_, ?_⟩
    · intro cs v r ys h _; simp [parseValue] at h
    · intro cs es r ys h; simp [parseElems] at h
    · intro cs ms r ys h; simp [parseMembers] at h
  | succ fuel ih =>
    obtain ⟨ihV, ihE, ihM⟩ := ih
    refine ⟨?_, ?_, ?_⟩
    · -- parseValue
      intro cs v r ys h hcond
      cases hsk : skipWs cs with
      | nil => simp [parseValue, hsk] at h
      | cons c rest =>
        simp only [parseValue, hsk] at h
        rw [parseValue]
        simp only [skipWs_append_cons hsk ys]
        by_cases h1 : c = '{'
        · simp only [h1, if_true] at h ⊢
          obtain ⟨⟨ms, r1⟩, hm, heq⟩ := Option.map_eq_some'.mp h
          cases heq
          rw [ihM rest ms r1 ys hm]; rfl
        · simp only [h1, if_false] at h ⊢
          by_cases h2 : c = '['
          · simp only [h2, if_true] at h ⊢
            obtain ⟨⟨es, r1⟩, hm, heq⟩ := Option.map_eq_some'.mp h
            cases heq
            rw [ihE rest es r1 ys hm]; rfl
          · simp only [h2, if_false] at h ⊢
            by_cases h3 : c = '"'
            · simp only [h3, if_true] at h ⊢
              obtain ⟨⟨s1, r1⟩, hm, heq⟩ := Option.map_eq_some'.mp h
              cases heq
              rw [strBody_append rest false s1 r1 hm ys]; rfl
            · simp only [h3, if_false] at h ⊢
              by_cases h4 : c = 't'
              · simp only [h4, if_true] at h ⊢
                obtain ⟨r1, hm, heq⟩ := Option.map_eq_some'.mp h
                cases heq
                rw [stripLit_append _ rest hm ys]; rfl
              · simp only [h4, if_false] at h ⊢
                by_cases h5 : c = 'f'
                · simp only [h5, if_true] at h ⊢
                  obtain ⟨r1, hm, heq⟩ := Option.map_eq_some'.mp h
                  cases heq
                  rw [stripLit_append _ rest hm ys]; rfl
                · simp only [h5, if_false] at h ⊢
                  by_cases h6 : c = 'n'
                  · simp only [h6, if_true] at h ⊢
                    obtain ⟨r1, hm, heq⟩ := Option.map_eq_some'.mp h
                    cases heq
                    rw [stripLit_append _ rest hm ys]; rfl
                  · simp only [h6, if_false] at h ⊢
                    by_cases h7 : isDigitChar c
                    · simp only [h7, if_true] at h ⊢
                      have hr : r ≠ [] := by
                        rcases hcond with hr | ⟨c2, r2, hsk2, hor⟩
                        · exact hr
                        · rw [hsk] at hsk2
                          obtain ⟨rfl, rfl⟩ := List.cons.inj hsk2
                          rcases hor with rfl | rfl
                          · exact absurd rfl h1
                          · exact absurd rfl h2
                      cases r with
                      | nil => exact absurd rfl hr
                      | cons d r2 =>
                        obtain ⟨⟨n1, r1⟩, hm, heq⟩ := Option.map_eq_some'.mp h
                        cases heq
                        have := parseDigits_append hm ys
                        rw [List.cons_append] at this
                        rw [this]; rfl
                    · simp [h7] at h
    · -- parseElems
      intro cs es r ys h
      cases hsk : skipWs cs with
      | nil => simp [parseElems, hsk] at h
      | cons c rest =>
        simp only [parseElems, hsk] at h
        rw [parseElems]
        simp only [skipWs_append_cons hsk ys]
        by_cases h1 : c = ']'
        · simp only [h1, if_true] at h ⊢
          obtain ⟨rfl, rfl⟩ := Prod.mk.injEq .. ▸ Option.some.inj h
          rfl
        · simp only [h1, if_false] at h ⊢
          cases hv : parseValue fuel (c :: rest) with
          | none => rw [hv] at h; simp at h
          | some p =>
            obtain ⟨v1, r1⟩ := p
            rw [hv] at h
            simp only at h
            cases hs2 : skipWs r1 with
            | nil => rw [hs2] at h; simp at h
            | cons d r2 =>
              rw [hs2] at h
              simp only at h
              have hr1 : r1 ≠ [] := by
                intro hnil
                rw [hnil] at hs2
                simp [skipWs] at hs2
              have hv2 := ihV (c :: rest) v1 r1 ys hv (Or.inl hr1)
              rw [List.cons_append] at hv2
              rw [hv2]
              simp only
              rw [skipWs_append_cons hs2 ys]
              simp only
              by_cases hd1 : d = ','
              · simp only [hd1, if_true] at h ⊢
                obtain ⟨⟨es1, r3⟩, hm, heq⟩ := Option.map_eq_some'.mp h
                cases heq
                rw [ihE r2 es1 r3 ys hm]; rfl
              · simp only [hd1, if_false] at h ⊢
                by_cases hd2 : d = ']'
                · simp only [hd2, if_true] at h ⊢
                  obtain ⟨rfl, rfl⟩ := Prod.mk.injEq .. ▸ Option.some.inj h
                  rfl
                · simp [hd2] at h
    · -- parseMembers
      intro cs ms r ys h
      cases hsk : skipWs cs with
      | nil => simp [parseMembers, hsk] at h
      | cons c rest =>
        simp only [parseMembers, hsk] at h
        rw [parseMembers]
        simp only [skipWs_append_cons hsk ys]
        by_cases h1 : c = '}'
        · simp only [h1, if_true] at h ⊢
          obtain ⟨rfl, rfl⟩ := Prod.mk.injEq .. ▸ Option.some.inj h
          rfl
        · simp only [h1, if_false] at h ⊢
          by_cases h2 : c = '"'
          · simp only [h2, if_true] at h ⊢
            cases hsb : strBody false rest with
            | none => rw [hsb] at h; simp at h
            | some p =>
              obtain ⟨k1, r1⟩ := p
              rw [hsb] at h
              simp only at h
              rw [strBody_append rest false k1 r1 hsb ys]
              simp only
              cases hs2 : skipWs r1 with
              | nil => rw [hs2] at h; simp at h
              | cons d r2 =>
                rw [hs2] at h
                simp only at h
                rw [skipWs_append_cons hs2 ys]
                simp only
                by_cases hd1 : d = ':'
                · simp only [hd1, if_true] at h ⊢
                  cases hv : parseValue fuel r2 with
                  | none => rw [hv] at h; simp at h
                  | some p =>
                    obtain ⟨v1, r3⟩ := p
                    rw [hv] at h
                    simp only at h
                    cases hs3 : skipWs r3 with
                    | nil => rw [hs3] at h; simp at h
                    | cons e r4 =>
                      rw [hs3] at h
                      simp only at h
                      have hr3 : r3 ≠ [] := by
                        intro hnil
                        rw [hnil] at hs3
                        simp [skipWs] at hs3
                      have hv2 := ihV r2 v1 r3 ys hv (Or.inl hr3)
                      rw [hv2]
                      simp only
                      rw [skipWs_append_cons hs3 ys]
                      simp only
                      by_cases he1 : e = ','
                      · simp only [he1, if_true] at h ⊢
                        obtain ⟨⟨ms1, r5⟩, hm, heq⟩ := Option.map_eq_some'.mp h
                        cases heq
                        rw [ihM r4 ms1 r5 ys hm]; rfl
                      · simp only [he1, if_false] at h ⊢
                        by_cases he2 : e = '}'
                        · simp only [he2, if_true] at h ⊢
                          obtain ⟨rfl, rfl⟩ := Prod.mk.injEq .. ▸ Option.some.inj h
                          rfl
                        · simp [he2] at h
                · simp [hd1] at h
          · simp [h2] at h

theorem parse_mono :
    ∀ fuel : Nat,
    (∀ cs out, parseValue fuel cs = some out → parseValue (fuel + 1) cs = some out)
  ∧ (∀ cs out, parseElems fuel cs = some out → parseElems (fuel + 1) cs = some out)
  ∧ (∀ cs out, parseMembers fuel cs = some out → parseMembers (fuel + 1) cs = some out) := by
  intro fuel
  induction fuel with
  | zero =>
    refine ⟨?_, ?_, ?_⟩
    · intro cs out h; simp [parseValue] at h
    · intro cs out h; simp [parseElems] at h
    · intro cs out h; simp [parseMembers] at h
  | succ fuel ih =>
    obtain ⟨ihV, ihE, ihM⟩ := ih
    refine ⟨?_, ?_, ?_⟩
    · intro cs out h
      cases hsk : skipWs cs with
      | nil => simp [parseValue, hsk] at h
      | cons c rest =>
        simp only [parseValue, hsk] at h
        rw [parseValue]
        simp only [hsk]
        by_cases h1 : c = '{'
        · simp only [h1, if_true] at h ⊢
          obtain ⟨⟨ms, r1⟩, hm, heq⟩ := Option.map_eq_some'.mp h
          rw [ihM rest _ hm]
          simpa using heq
        · simp only [h1, if_false] at h ⊢
          by_cases h2 : c = '['
          · simp only [h2, if_true] at h ⊢
            obtain ⟨⟨es, r1⟩, hm, heq⟩ := Option.map_eq_some'.mp h
            rw [ihE rest _ hm]
            simpa using heq
          · simp only [h2, if_false] at h ⊢
            exact h
    · intro cs out h
      cases hsk : skipWs cs with
      | nil => simp [parseElems, hsk] at h
      | cons c rest =>
        simp only [parseElems, hsk] at h
        rw [parseElems]
        simp only [hsk]
        by_cases h1 : c = ']'
        · simp only [h1, if_true] at h ⊢
          exact h
        · simp only [h1, if_false] at h ⊢
          cases hv : parseValue fuel (c :: rest) with
          | none => rw [hv] at h; simp at h
          | some p =>
            rw [hv] at h
            simp only at h
            obtain ⟨v1, r1⟩ := p
            rw [ihV (c :: rest) _ hv]
            simp only
            cases hs2 : skipWs r1 with
            | nil => rw [hs2] at h; simp at h
            | cons d r2 =>
              rw [hs2] at h
              simp only at h
              by_cases hd1 : d = ','
              · simp only [hd1, if_true] at h ⊢
                obtain ⟨⟨es1, r3⟩, hm, heq⟩ := Option.map_eq_some'.mp h
                rw [ihE r2 _ hm]
                simpa using heq
              · simp only [hd1, if_false] at h ⊢
                exact h
    · intro cs out h
      cases hsk : skipWs cs with
      | nil => simp [parseMembers, hsk] at h
      | cons c rest =>
        simp only [parseMembers, hsk] at h
        rw [parseMembers]
        simp only [hsk]
        by_cases h1 : c = '}'
        · simp only [h1, if_true] at h ⊢
          exact h
        · simp only [h1, if_false] at h ⊢
          by_cases h2 : c = '"'
          · simp only [h2, if_true] at h ⊢
            cases hsb : strBody false rest with
            | none => rw [hsb] at h; simp at h
            | some p =>
              obtain ⟨k1, r1⟩ := p
              rw [hsb] at h
              simp only at h ⊢
              cases hs2 : skipWs r1 with
              | nil => rw [hs2] at h; simp at h
              | cons d r2 =>
                rw [hs2] at h
                simp only at h
                by_cases hd1 : d = ':'
                · simp only [hd1, if_true] at h ⊢
                  cases hv : parseValue fuel r2 with
                  | none => rw [hv] at h; simp at h
                  | some p =>
                    obtain ⟨v1, r3⟩ := p
                    rw [hv] at h
                    simp only at h
                    rw [ihV r2 _ hv]
                    simp only
                    cases hs3 : skipWs r3 with
                    | nil => rw [hs3] at h; simp at h
                    | cons e r4 =>
                      rw [hs3] at h
                      simp only at h
                      by_cases he1 : e = ','
                      · simp only [he1, if_true] at h ⊢
                        obtain ⟨⟨ms1, r5⟩, hm, heq⟩ := Option.map_eq_some'.mp h
                        rw [ihM r4 _ hm]
                        simpa using heq
                      · simp only [he1, if_false] at h ⊢
                        exact h
                · simp [hd1] at h
          · simp [h2] at h

theorem parseValue_mono_le :
    ∀ {f1 f2 : Nat}, f1 ≤ f2 → ∀ {cs out}, parseValue f1 cs = some out →
      parseValue f2 cs = some out := by
  intro f1 f2 hle
  induction hle with
  | refl => intro cs out h; exact h
  | step hle2 ih2 =>
    intro cs out h
    exact (parse_mono _).1 _ _ (ih2 h)

theorem skipWs_first :
    ∀ (xs : List Char), (∃ c ∈ xs, isWsChar c = false) →
      ∃ c r, skipWs xs = c :: r ∧ c ∈ xs := by
  intro xs
  induction xs with
  | nil => intro h; simp at h
  | cons x xs ih =>
    intro h
    by_cases hw : isWsChar x
    · obtain ⟨c, hc, hcw⟩ := h
      rcases List.mem_cons.mp hc with rfl | hc2
      · rw [hw] at hcw; cases hcw
      · obtain ⟨c, r, hr, hm⟩ := ih ⟨c, hc2, hcw⟩
        exact ⟨c, r, by simp [skipWs, hw, hr], List.mem_cons_of_mem _ hm⟩
    · exact ⟨x, xs, by simp [skipWs, hw], List.mem_cons_self x xs⟩

theorem skipWs_decomp :
    ∀ (xs q : List Char), skipWs xs = q →
      ∃ ws, xs = ws ++ q ∧ ∀ c ∈ ws, isWsChar c = true := by
  intro xs
  induction xs with
  | nil =>
    intro q h
    simp [skipWs] at h
    exact ⟨[], by simp [h], by simp⟩
  | cons x xs ih =>
    intro q h
    by_cases hw : isWsChar x
    · simp only [skipWs, hw, if_true] at h
      obtain ⟨ws, hws, hall⟩ := ih q h
      refine ⟨x :: ws, by simp [hws], ?_⟩
      intro c hc
      rcases List.mem_cons.mp hc with rfl | hc2
      · exact hw
      · exact hall c hc2
    · simp only [skipWs, hw, if_false] at h
      exact ⟨[], by simp [h.symm], by simp⟩

theorem openChar_not_ws {c : Char} (h : c = '{' ∨ c = '[') : isWsChar c = false := by
  rcases h with rfl | rfl <;> decide

theorem wsChar_not_open {c : Char} (h : isWsChar c = true) : ¬(c = '{' ∨ c = '[') := by
  intro hc
  rcases hc with rfl | rfl <;> simp [isWsChar] at h

theorem parseStrictChars_elim {cs : List Char} {v : JsonVal}
    (h : parseStrictChars cs = some v) :
    ∃ c rest r, skipWs cs = c :: rest ∧ (c = '{' ∨ c = '[') ∧
      parseValue (jsonFuel cs) (c :: rest) = some (v, r) ∧ skipWs r = [] := by
  unfold parseStrictChars at h
  cases hsk : skipWs cs with
  | nil => rw [hsk] at h; simp at h
  | cons c rest =>
    rw [hsk] at h
    simp only at h
    by_cases hopen : c = '{' ∨ c = '['
    · rw [if_pos hopen] at h
      cases hpv : parseValue (jsonFuel cs) (c :: rest) with
      | none => rw [hpv] at h; simp at h
      | some p =>
        obtain ⟨v1, r⟩ := p
        rw [hpv] at h
        simp only at h
        by_cases hrem : skipWs r = []
        · rw [if_pos hrem] at h
          obtain rfl := Option.some.inj h
          exact ⟨c, rest, r, rfl, hopen, hpv, hrem⟩
        · rw [if_neg hrem] at h; cases h
    · rw [if_neg hopen] at h; cases h

theorem parseStrictChars_ws_ext {cs ys : List Char} {v : JsonVal}
    (h : parseStrictChars cs = some v) (hys : skipWs ys = []) :
    parseStrictChars (cs ++ ys) = some v := by
  obtain ⟨c, rest, r, hsk, hopen, hpv, hrem⟩ := parseStrictChars_elim h
  have hskip2 := skipWs_append_cons hsk ys
  have hfuel : jsonFuel cs ≤ jsonFuel (cs ++ ys) := by
    simp only [jsonFuel, List.length_append]
    omega
  have hmono := parseValue_mono_le hfuel hpv
  have hdelim : selfDelim (c :: rest) := by
    refine ⟨c, rest, ?_, hopen⟩
    simp [skipWs, openChar_not_ws hopen]
  have hext := (parse_ext (jsonFuel (cs ++ ys))).1 (c :: rest) v r ys hmono (Or.inr hdelim)
  rw [List.cons_append] at hext
  unfold parseStrictChars
  rw [hskip2]
  simp only
  rw [if_pos hopen, hext]
  simp only
  rw [skipWs_append_nil hrem ys, hys]
  simp

theorem parseStrictChars_prefixed_none {xs ys : List Char}
    (hnw : ∃ c ∈ xs, isWsChar c = false)
    (hno : ∀ c ∈ xs, ¬(c = '{' ∨ c = '[')) :
    parseStrictChars (xs ++ ys) = none := by
  obtain ⟨c, r, hsk, hm⟩ := skipWs_first xs hnw
  unfold parseStrictChars
  rw [skipWs_append_cons hsk ys]
  simp only
  rw [if_neg (hno c hm)]

theorem afterFence_none :
    ∀ (cs : List Char), (∀ c ∈ cs, isTick c = false) → afterFence cs = none := by
  intro cs
  induction cs with
  | nil => intro _; rfl
  | cons c cs ih =>
    intro h
    have hc : isTick c = false := h c (List.mem_cons_self c cs)
    have hrest : ∀ x ∈ cs, isTick x = false := fun x hx => h x (List.mem_cons_of_mem _ hx)
    simp only [afterFence, hc, if_false]
    exact ih hrest

theorem untilFence_append :
    ∀ (xs rest : List Char), (∀ c ∈ xs, isTick c = false) →
      untilFence (xs ++ Char.ofNat 96 :: Char.ofNat 96 :: Char.ofNat 96 :: rest) = some xs := by
  intro xs
  induction xs with
  | nil =>
    intro rest _
    simp [untilFence, isTick]
  | cons x xs ih =>
    intro rest h
    have hx : isTick x = false := h x (List.mem_cons_self x xs)
    have hrest : ∀ c ∈ xs, isTick c = false := fun c hc => h c (List.mem_cons_of_mem _ hc)
    simp only [List.cons_append, untilFence, hx, Bool.false_eq_true, if_false, List.append_eq]
    rw [ih rest hrest]
    rfl

theorem fromFirstOpen_skip :
    ∀ (xs ys : List Char), (∀ c ∈ xs, ¬(c = '{' ∨ c = '[')) →
      fromFirstOpen (xs ++ ys) = fromFirstOpen ys := by
  intro xs
  induction xs with
  | nil => intro ys _; rfl
  | cons x xs ih =>
    intro ys h
    have hx := h x (List.mem_cons_self x xs)
    simp only [List.cons_append, fromFirstOpen, if_neg hx]
    exact ih ys fun c hc => h c (List.mem_cons_of_mem _ hc)

/-- C1: for every input string, extraction is total and tagged — it returns
either a structured result or an extraction failure carrying the raw text,
and in particular never raises. -/
theorem extract_never_raises (s : String) :
    (∃ v, extract s = ExtractResult.ok v) ∨ extract s = ExtractResult.failure s := by
  unfold extract
  cases parseStrict s with
  | some v => exact Or.inl ⟨v, rfl⟩
  | none =>
    cases parseFenced s with
    | some v => exact Or.inl ⟨v, rfl⟩
    | none =>
      cases parseSpan s with
      | some v => exact Or.inl ⟨v, rfl⟩
      | none =>
        cases parseRepaired s with
        | some v => exact Or.inl ⟨v, rfl⟩
        | none => exact Or.inr rfl

theorem afterFence_triple (rest : List Char) :
    afterFence (Char.ofNat 96 :: Char.ofNat 96 :: Char.ofNat 96 :: rest) = some rest := by
  have ht : isTick (Char.ofNat 96) = true := by decide
  simp [afterFence, ht]

theorem dropLine_jsonTag (body : List Char) :
    dropLine ('j' :: 's' :: 'o' :: 'n' :: '\n' :: body) = body := by
  simp [dropLine]

/-- C2: an input whose payload parses directly as strict structured data is
extracted successfully — whether the payload is the whole text, wrapped in a
fenced code block, or surrounded by prose — and the extracted structure
equals the direct parse of the payload; the strategies are tried in order
with the first success winning. -/
theorem extract_embedded_payload :
    (∀ s v, parseStrict s = some v → extract s = ExtractResult.ok v)
  ∧ (∀ p v, parseStrict p = some v → (∀ c ∈ p.data, isTick c = false) →
      extract ("```json\n" ++ p ++ "\n```") = ExtractResult.ok v)
  ∧ (∀ pre p suf v, parseStrict p = some v →
      (∀ c ∈ p.data, isTick c = false) →
      (∀ c ∈ pre.data, isTick c = false ∧ ¬(c = '{' ∨ c = '[')) →
      (∃ c ∈ pre.data, isWsChar c = false) →
      (∀ c ∈ suf.data, isTick c = false) →
      extract (pre ++ p ++ suf) = ExtractResult.ok v) := by
  refine ⟨?_, ?_, ?_⟩
  · intro s v h
    unfold extract
    rw [h]
  · intro p v hp htick
    have hdata : ("```json\n" ++ p ++ "\n```").data =
        Char.ofNat 96 :: Char.ofNat 96 :: Char.ofNat 96 ::
          'j' :: 's' :: 'o' :: 'n' :: '\n' ::
          (p.data ++ ('\n' :: Char.ofNat 96 :: Char.ofNat 96 :: Char.ofNat 96 :: [])) := by
      have h1 : ("```json\n" ++ p ++ "\n```").data =
          "```json\n".data ++ p.data ++ "\n```".data := by
        simp [String.data_append]
      rw [h1]
      have h2 : "```json\n".data =
          Char.ofNat 96 :: Char.ofNat 96 :: Char.ofNat 96 ::
            'j' :: 's' :: 'o' :: 'n' :: '\n' :: [] := by decide
      have h3 : "\n```".data =
          '\n' :: Char.ofNat 96 :: Char.ofNat 96 :: Char.ofNat 96 :: [] := by decide
      rw [h2, h3]
      simp
    have hstrict : parseStrict ("```json\n" ++ p ++ "\n```") = none := by
      unfold parseStrict
      rw [hdata]
      have := @parseStrictChars_prefixed_none [Char.ofNat 96]
        (Char.ofNat 96 :: Char.ofNat 96 ::
          'j' :: 's' :: 'o' :: 'n' :: '\n' ::
          (p.data ++ ('\n' :: Char.ofNat 96 :: Char.ofNat 96 :: Char.ofNat 96 :: [])))
        ⟨Char.ofNat 96, by simp, by decide⟩
        (by intro c hc; simp at hc; subst hc; decide)
      simpa using this
    have hfenced : parseFenced ("```json\n" ++ p ++ "\n```") = some v := by
      unfold parseFenced
      rw [hdata, afterFence_triple]
      simp only
      rw [dropLine_jsonTag]
      have hsplit : p.data ++ ('\n' :: Char.ofNat 96 :: Char.ofNat 96 :: Char.ofNat 96 :: []) =
          (p.data ++ ['\n']) ++ (Char.ofNat 96 :: Char.ofNat 96 :: Char.ofNat 96 :: []) := by
        simp
      rw [hsplit, untilFence_append (p.data ++ ['\n']) []
        (by
          intro c hc
          rcases List.mem_append.mp hc with hc1 | hc2
          · exact htick c hc1
          · simp at hc2; subst hc2; decide)]
      simp only
      exact parseStrictChars_ws_ext hp (by decide)
    unfold extract
    rw [hstrict, hfenced]
  · intro pre p suf v hp hptick hpre hprew hsuf
    have hdata : (pre ++ p ++ suf).data = pre.data ++ (p.data ++ suf.data) := by
      simp [String.data_append]
    obtain ⟨c, rest, r, hsk, hopen, hpv, hrem⟩ := parseStrictChars_elim (show parseStrictChars p.data = some v from hp)
    obtain ⟨ws, hws, hwsall⟩ := skipWs_decomp p.data (c :: rest) hsk
    have hstrict : parseStrict (pre ++ p ++ suf) = none := by
      unfold parseStrict
      rw [hdata]
      exact parseStrictChars_prefixed_none hprew (fun c2 hc2 => (hpre c2 hc2).2)
    have hfenced : parseFenced (pre ++ p ++ suf) = none := by
      unfold parseFenced
      rw [hdata, afterFence_none]
      intro c2 hc2
      rcases List.mem_append.mp hc2 with hc3 | hc3
      · exact (hpre c2 hc3).1
      rcases List.mem_append.mp hc3 with hc4 | hc4
      · exact hptick c2 hc4
      · exact hsuf c2 hc4
    have hspan : parseSpan (pre ++ p ++ suf) = some v := by
      unfold parseSpan
      rw [hdata]
      have hre : pre.data ++ (p.data ++ suf.data) =
          (pre.data ++ ws) ++ ((c :: rest) ++ suf.data) := by
        rw [hws]; simp
      rw [hre, fromFirstOpen_skip (pre.data ++ ws) _ ?hno]
      case hno =>
        intro c2 hc2
        rcases List.mem_append.mp hc2 with hc3 | hc3
        · exact (hpre c2 hc3).2
        · exact wsChar_not_open (hwsall c2 hc3)
      simp only [List.cons_append, fromFirstOpen, if_pos hopen]
      have hfuel : jsonFuel p.data ≤
          jsonFuel ((pre.data ++ ws) ++ ((c :: rest) ++ suf.data)) := by
        simp only [jsonFuel, List.length_append, hws]
        omega
      have hmono := parseValue_mono_le hfuel hpv
      have hdelim : selfDelim (c :: rest) := by
        refine ⟨c, rest, ?_, hopen⟩
        simp [skipWs, openChar_not_ws hopen]
      have hext := (parse_ext _).1 (c :: rest) v r suf.data hmono (Or.inr hdelim)
      rw [List.cons_append] at hext
      simp only [List.append_eq]
      rw [hext]
    unfold extract
    rw [hstrict, hfenced, hspan]

/-- Witness for C2: a concrete payload surrounded by prose is extracted to
exactly the direct parse of the payload. -/
theorem extract_embedded_payload_witness :
    extract ("the plan: " ++ "\x7b\"a\": [1, 2]\x7d" ++ " enjoy") =
      ExtractResult.ok (JsonVal.obj [("a", JsonVal.arr [JsonVal.num 1, JsonVal.num 2])]) :=
  extract_embedded_payload.2.2 ("the plan: ") ("\x7b\"a\": [1, 2]\x7d") (" enjoy")
    (JsonVal.obj [("a", JsonVal.arr [JsonVal.num 1, JsonVal.num 2])])
    (by rfl) (by decide) (by decide) (by decide) (by decide)

/-- C3: when the secondary model call times out or errors, the result's
model-usage metadata does not list the secondary model, and the primary call
still receives an insights argument that is present and equal to the empty
string. -/
theorem secondary_failure_fallback
    (secondary : ModelInvocationResult)
    (existing_plan destination constraints action : String)
    (hfail : secondary = ModelInvocationResult.timeout ∨
      ∃ cause, secondary = ModelInvocationResult.error cause) :
    secondaryModelName ∉
      (enhance secondary existing_plan destination constraints action).models_used
    ∧ (enhance secondary existing_plan destination constraints action).primaryArgs.insights =
        some "" := by
  have hne : secondaryModelName ≠ primaryModelName := by decide
  rcases hfail with rfl | ⟨cause, rfl⟩
  · refine ⟨?_, rfl⟩
    simp [enhance, hne]
  · refine ⟨?_, rfl⟩
    simp [enhance, hne]

/-- Witness for C3 at a concrete timed-out secondary call. -/
theorem secondary_failure_fallback_witness :
    secondaryModelName ∉
      (enhance ModelInvocationResult.timeout ("Day 1: Arrive") ("Paris") ("") ("fill_gaps")).models_used
    ∧ (enhance ModelInvocationResult.timeout ("Day 1: Arrive") ("Paris") ("") ("fill_gaps")).primaryArgs.insights =
        some "" :=
  secondary_failure_fallback ModelInvocationResult.timeout ("Day 1: Arrive") ("Paris") ("") ("fill_gaps")
    (Or.inl rfl)

/-- C4: a discover run at detail level `high_level` never invokes
ItineraryPlanner or DetailEnricher — the pipeline stops after
ConstraintParser and DestinationRecommender — and the terminal result
carries ranked destinations only. -/
theorem high_level_stops_after_recommender (impls : StageImpls) (userInput : String) :
    Stage.itineraryPlanner ∉ (generate_plan impls DetailLevel.high_level userInput).2
    ∧ Stage.detailEnricher ∉ (generate_plan impls DetailLevel.high_level userInput).2
    ∧ (generate_plan impls DetailLevel.high_level userInput).2 =
        [Stage.constraintParser, Stage.destinationRecommender]
    ∧ (generate_plan impls DetailLevel.high_level userInput).1 =
        PlanResult.destinations
          (impls.recommend (impls.parseConstraints userInput)) := by
  refine ⟨?_, ?_, rfl, rfl⟩
  · simp [generate_plan]
  · simp [generate_plan]

/-! ### Streamer lemmas -/

section StreamerLemmas

variable {α : Type} (f : Nat → Nat → Option String)

theorem mem_dayEvents :
    ∀ (acts : List α) (a : Nat) (ev : StreamEvent), ev ∈ dayEvents f d a acts →
      ∃ j, ev = StreamEvent.activityEnriched d j (enrichOutcome f d j) ∧ a ≤ j := by
  intro acts
  induction acts with
  | nil => intro a ev h; simp [dayEvents] at h
  | cons x acts ih =>
    intro a ev h
    rcases List.mem_cons.mp h with rfl | h2
    · exact ⟨a, rfl, Nat.le_refl a⟩
    · obtain ⟨j, hj, hle⟩ := ih (a + 1) ev h2
      exact ⟨j, hj, Nat.le_of_succ_le hle⟩

theorem mem_activityEventsFrom :
    ∀ (plan : List (List α)) (d : Nat) (ev : StreamEvent),
      ev ∈ activityEventsFrom f d plan →
      ∃ d2 j, ev = StreamEvent.activityEnriched d2 j (enrichOutcome f d2 j) ∧ d ≤ d2 := by
  intro plan
  induction plan with
  | nil => intro d ev h; simp [activityEventsFrom] at h
  | cons acts days ih =>
    intro d ev h
    rcases List.mem_append.mp h with h2 | h2
    · obtain ⟨j, hj, _⟩ := mem_dayEvents f acts 0 ev h2
      exact ⟨d, j, hj, Nat.le_refl d⟩
    · obtain ⟨d2, j, hj, hle⟩ := ih (d + 1) ev h2
      exact ⟨d2, j, hj, Nat.le_of_succ_le hle⟩

theorem len_dayEvents :
    ∀ (acts : List α) (a : Nat), (dayEvents f d a acts).length = acts.length := by
  intro acts
  induction acts with
  | nil => intro a; rfl
  | cons x acts ih => intro a; simp [dayEvents, ih (a + 1)]

theorem len_activityEventsFrom :
    ∀ (plan : List (List α)) (d : Nat),
      (activityEventsFrom f d plan).length = totalActivities plan := by
  intro plan
  induction plan with
  | nil => intro d; rfl
  | cons acts days ih =>
    intro d
    simp [activityEventsFrom, totalActivities, len_dayEvents f, ih (d + 1)]

theorem actPairs_dayEvents_cons (x : α) (acts : List α) (a : Nat) :
    actPairs (dayEvents f d a (x :: acts)) = (d, a) :: actPairs (dayEvents f d (a + 1) acts) := by
  simp [dayEvents, actPairs]

theorem mem_actPairs_dayEvents :
    ∀ (acts : List α) (a : Nat) (p : Nat × Nat), p ∈ actPairs (dayEvents f d a acts) →
      p.1 = d ∧ a ≤ p.2 := by
  intro acts
  induction acts with
  | nil => intro a p h; simp [dayEvents, actPairs] at h
  | cons x acts ih =>
    intro a p h
    rw [actPairs_dayEvents_cons] at h
    rcases List.mem_cons.mp h with rfl | h2
    · exact ⟨rfl, Nat.le_refl a⟩
    · obtain ⟨h1, h2⟩ := ih (a + 1) p h2
      exact ⟨h1, Nat.le_of_succ_le h2⟩

theorem nodup_actPairs_dayEvents :
    ∀ (acts : List α) (a : Nat), (actPairs (dayEvents f d a acts)).Nodup := by
  intro acts
  induction acts with
  | nil => intro a; simp [dayEvents, actPairs]
  | cons x acts ih =>
    intro a
    rw [actPairs_dayEvents_cons]
    refine List.nodup_cons.mpr ⟨?_, ih (a + 1)⟩
    intro hmem
    have := (mem_actPairs_dayEvents f acts (a + 1) (d, a) hmem).2
    omega

theorem mem_actPairs_activityEventsFrom :
    ∀ (plan : List (List α)) (d : Nat) (p : Nat × Nat),
      p ∈ actPairs (activityEventsFrom f d plan) → d ≤ p.1 := by
  intro plan
  induction plan with
  | nil => intro d p h; simp [activityEventsFrom, actPairs] at h
  | cons acts days ih =>
    intro d p h
    rw [activityEventsFrom, actPairs, List.filterMap_append] at h
    rcases List.mem_append.mp h with h2 | h2
    · exact (mem_actPairs_dayEvents f acts 0 p h2).1 ▸ Nat.le_refl d
    · exact Nat.le_of_succ_le (ih (d + 1) p h2)

theorem nodup_actPairs_activityEventsFrom :
    ∀ (plan : List (List α)) (d : Nat),
      (actPairs (activityEventsFrom f d plan)).Nodup := by
  intro plan
  induction plan with
  | nil => intro d; simp [activityEventsFrom, actPairs]
  | cons acts days ih =>
    intro d
    rw [activityEventsFrom, actPairs, List.filterMap_append]
    refine List.Nodup.append (nodup_actPairs_dayEvents f acts 0) (ih (d + 1)) ?_
    intro p hp1 hp2
    have h1 := (mem_actPairs_dayEvents f acts 0 p hp1).1
    have h2 := mem_actPairs_activityEventsFrom f days (d + 1) p hp2
    omega

theorem keys_of_actEvents :
    ∀ (evs : List StreamEvent),
      (∀ ev ∈ evs, ∃ d a s, ev = StreamEvent.activityEnriched d a s) →
      evs.filterMap eventKey = (actPairs evs).map (fun p => UnitKey.act p.1 p.2) := by
  intro evs
  induction evs with
  | nil => intro _; rfl
  | cons ev evs ih =>
    intro h
    obtain ⟨d, a, s, rfl⟩ := h ev (List.mem_cons_self ev evs)
    simp only [actPairs, List.filterMap_cons, eventKey, List.map_cons]
    have := ih fun e he => h e (List.mem_cons_of_mem _ he)
    simp only [actPairs] at this
    rw [this]

theorem actEvents_all_activity (plan : List (List α)) (d : Nat) :
    ∀ ev ∈ activityEventsFrom f d plan, ∃ d2 a s, ev = StreamEvent.activityEnriched d2 a s := by
  intro ev hev
  obtain ⟨d2, j, rfl, _⟩ := mem_activityEventsFrom f plan d ev hev
  exact ⟨d2, j, enrichOutcome f d2 j, rfl⟩

theorem complete_not_mem_actEvents (plan : List (List α)) (d : Nat) :
    StreamEvent.complete ∉ activityEventsFrom f d plan := by
  intro h
  obtain ⟨d2, a, s, heq⟩ := actEvents_all_activity f plan d StreamEvent.complete h
  cases heq

end StreamerLemmas

/-- C5: for a stored plan with N activities and the two transportation legs,
with no unit failing, the stream emits exactly N + 2 enrichment events plus
exactly one completion marker, and the unit keys of the enrichment events
are pairwise distinct. -/
theorem streamer_event_counts {α : Type} (plan : List (List α))
    (f : Nat → Nat → Option String) (tTo tBack : Option String)
    (_hnofail : ∀ d a, f d a ≠ none) :
    ((streamEvents plan f tTo tBack).filter (fun ev => (eventKey ev).isSome)).length
      = totalActivities plan + 2
    ∧ (streamEvents plan f tTo tBack).count StreamEvent.complete = 1
    ∧ ((streamEvents plan f tTo tBack).filterMap eventKey).Nodup := by
  refine ⟨?_, ?_, ?_⟩
  · have hall : (activityEventsFrom f 0 plan).filter (fun ev => (eventKey ev).isSome)
        = activityEventsFrom f 0 plan := by
      refine List.filter_eq_self.mpr ?_
      intro ev hev
      obtain ⟨d2, a, s, rfl⟩ := actEvents_all_activity f plan 0 ev hev
      rfl
    simp only [streamEvents, List.filter_cons, List.filter_append]
    rw [hall]
    simp [eventKey, len_activityEventsFrom f]
  · simp only [streamEvents, List.count_cons, List.count_append]
    have h0 : (activityEventsFrom f 0 plan).count StreamEvent.complete = 0 :=
      List.count_eq_zero.mpr (complete_not_mem_actEvents f plan 0)
    rw [h0]
    simp
  · simp only [streamEvents, List.filterMap_cons, List.filterMap_append, eventKey]
    rw [keys_of_actEvents _ (actEvents_all_activity f plan 0)]
    refine List.nodup_cons.mpr ⟨?_, ?_⟩
    · intro hmem
      rcases List.mem_append.mp hmem with h1 | h1
      · obtain ⟨p, _, heq⟩ := List.mem_map.mp h1
        cases heq
      · simp at h1
    · refine List.Nodup.append ?_ (by simp) ?_
      · refine List.Nodup.map ?_ (nodup_actPairs_activityEventsFrom f plan 0)
        intro p1 p2 hpq
        cases p1; cases p2
        simpa using hpq
      · intro k hk1 hk2
        simp at hk2
        subst hk2
        obtain ⟨p, _, heq⟩ := List.mem_map.mp hk1
        cases heq

/-- Witness for C5 at a concrete two-day plan with three activities and no
failing unit. -/
theorem streamer_event_counts_witness :
    ((streamEvents [["louvre", "dinner"], ["hike"]] (fun _ _ => some "ok") (some "train") (some "flight")).filter
        (fun ev => (eventKey ev).isSome)).length = totalActivities [["louvre", "dinner"], ["hike"]] + 2
    ∧ (streamEvents [["louvre", "dinner"], ["hike"]] (fun _ _ => some "ok") (some "train") (some "flight")).count
        StreamEvent.complete = 1
    ∧ ((streamEvents [["louvre", "dinner"], ["hike"]] (fun _ _ => some "ok") (some "train") (some "flight")).filterMap
        eventKey).Nodup :=
  streamer_event_counts [["louvre", "dinner"], ["hike"]] (fun _ _ => some "ok")
    (some "train") (some "flight") (fun _ _ => Option.noConfusion)

/-! ### Decimal-key machinery: `jsKey` is injective, so distinct
(day, activity) pairs hit distinct hash-table slots. -/

theorem digitChar_isDigit {k : Nat} (h : k < 10) : (Nat.digitChar k).isDigit = true := by
  interval_cases k <;> decide

theorem digitChar_val {k : Nat} (h : k < 10) : (Nat.digitChar k).toNat - '0'.toNat = k := by
  interval_cases k <;> decide

theorem toDigitsCore_digits :
    ∀ (fuel n : Nat) (acc : List Char), (∀ c ∈ acc, c.isDigit = true) →
      ∀ c ∈ Nat.toDigitsCore 10 fuel n acc, c.isDigit = true := by
  intro fuel
  induction fuel with
  | zero => intro n acc hacc c hc; exact hacc c hc
  | succ fuel ih =>
    intro n acc hacc c hc
    rw [Nat.toDigitsCore] at hc
    have hd : (Nat.digitChar (n % 10)).isDigit = true :=
      digitChar_isDigit (Nat.mod_lt n (by omega))
    by_cases hz : n / 10 = 0
    · rw [if_pos hz] at hc
      rcases List.mem_cons.mp hc with rfl | hc2
      · exact hd
      · exact hacc c hc2
    · rw [if_neg hz] at hc
      refine ih (n / 10) (Nat.digitChar (n % 10) :: acc) ?_ c hc
      intro c2 hc2
      rcases List.mem_cons.mp hc2 with rfl | hc3
      · exact hd
      · exact hacc c2 hc3

theorem foldl_digits_init :
    ∀ (acc : List Char) (v : Nat),
      acc.foldl (fun a c => a * 10 + (c.toNat - '0'.toNat)) v
        = v * 10 ^ acc.length + digitsVal acc := by
  intro acc
  induction acc with
  | nil => intro v; simp [digitsVal]
  | cons c acc ih =>
    intro v
    simp only [digitsVal, List.foldl_cons, Nat.zero_mul, Nat.zero_add, List.length_cons]
    rw [ih (v * 10 + (c.toNat - '0'.toNat)), ih (c.toNat - '0'.toNat)]
    ring

theorem toDigitsCore_val :
    ∀ (fuel n : Nat) (acc : List Char), n < fuel →
      digitsVal (Nat.toDigitsCore 10 fuel n acc)
        = n * 10 ^ acc.length + digitsVal acc := by
  intro fuel
  induction fuel with
  | zero => intro n acc h; omega
  | succ fuel ih =>
    intro n acc h
    rw [Nat.toDigitsCore]
    by_cases hz : n / 10 = 0
    · rw [if_pos hz]
      have hn : n % 10 = n := by omega
      have hval : (Nat.digitChar (n % 10)).toNat - '0'.toNat = n := by
        rw [digitChar_val (Nat.mod_lt n (by omega)), hn]
      simp only [digitsVal, List.foldl_cons]
      rw [show (0 * 10 + ((Nat.digitChar (n % 10)).toNat - '0'.toNat))
            = ((Nat.digitChar (n % 10)).toNat - '0'.toNat) by omega, hval]
      exact foldl_digits_init acc n
    · rw [if_neg hz]
      have hlt : n / 10 < fuel := by
        have h1 : 0 < n := by
          rcases Nat.eq_zero_or_pos n with rfl | h2
          · simp at hz
          · exact h2
        have := Nat.div_lt_self h1 (by omega : 1 < 10)
        omega
      rw [ih (n / 10) (Nat.digitChar (n % 10) :: acc) hlt]
      have hdval : digitsVal (Nat.digitChar (n % 10) :: acc)
          = (n % 10) * 10 ^ acc.length + digitsVal acc := by
        simp only [digitsVal, List.foldl_cons]
        rw [show (0 * 10 + ((Nat.digitChar (n % 10)).toNat - '0'.toNat))
              = ((Nat.digitChar (n % 10)).toNat - '0'.toNat) by omega,
          digitChar_val (Nat.mod_lt n (by omega))]
        exact foldl_digits_init acc (n % 10)
      rw [hdval]
      have hdm := Nat.div_add_mod n 10
      calc n / 10 * 10 ^ (Nat.digitChar (n % 10) :: acc).length
            + ((n % 10) * 10 ^ acc.length + digitsVal acc)
          = (10 * (n / 10) + n % 10) * 10 ^ acc.length + digitsVal acc := by
            simp only [List.length_cons]
            ring
        _ = n * 10 ^ acc.length + digitsVal acc := by rw [hdm]

theorem digitsVal_toDigits (n : Nat) : digitsVal (Nat.toDigits 10 n) = n := by
  unfold Nat.toDigits
  rw [toDigitsCore_val (n + 1) n [] (Nat.lt_succ_self n)]
  simp [digitsVal]

theorem repr_data_eq (n : Nat) : (Nat.repr n).data = Nat.toDigits 10 n := rfl

theorem repr_injective : Function.Injective Nat.repr := by
  intro m n h
  have hd : Nat.toDigits 10 m = Nat.toDigits 10 n := by
    rw [← repr_data_eq, ← repr_data_eq, h]
  have hm := digitsVal_toDigits m
  have hn := digitsVal_toDigits n
  rw [hd, hn] at hm
  exact hm.symm

theorem repr_no_underscore (n : Nat) : '_' ∉ (Nat.repr n).data := by
  intro h
  rw [repr_data_eq] at h
  have := toDigitsCore_digits (n + 1) n [] (by simp) '_' h
  cases this

theorem underscore_split :
    ∀ (s1 t1 s2 t2 : List Char), '_' ∉ s1 → '_' ∉ s2 →
      s1 ++ '_' :: t1 = s2 ++ '_' :: t2 → s1 = s2 ∧ t1 = t2 := by
  intro s1
  induction s1 with
  | nil =>
    intro t1 s2 t2 _ hs2 h
    cases s2 with
    | nil => simpa using h
    | cons x s2 =>
      simp only [List.nil_append, List.cons_append, List.cons.injEq] at h
      obtain ⟨rfl, _⟩ := h
      exact absurd (List.mem_cons_self _ _) hs2
  | cons x s1 ih =>
    intro t1 s2 t2 hs1 hs2 h
    cases s2 with
    | nil =>
      simp only [List.nil_append, List.cons_append, List.cons.injEq] at h
      obtain ⟨rfl, _⟩ := h
      exact absurd (List.mem_cons_self _ _) hs1
    | cons y s2 =>
      simp only [List.cons_append, List.cons.injEq] at h
      obtain ⟨rfl, h2⟩ := h
      have hs1t : '_' ∉ s1 := fun hm => hs1 (List.mem_cons_of_mem _ hm)
      have hs2t : '_' ∉ s2 := fun hm => hs2 (List.mem_cons_of_mem _ hm)
      obtain ⟨rfl, rfl⟩ := ih t1 s2 t2 hs1t hs2t h2
      exact ⟨rfl, rfl⟩

theorem jsKey_inj {d1 a1 d2 a2 : Nat} (h : jsKey d1 a1 = jsKey d2 a2) :
    d1 = d2 ∧ a1 = a2 := by
  unfold jsKey at h
  have hdata : (Nat.repr d1).data ++ '_' :: (Nat.repr a1).data
      = (Nat.repr d2).data ++ '_' :: (Nat.repr a2).data := by
    have h2 := congrArg String.data h
    simpa [String.data_append] using h2
  obtain ⟨h1, h2⟩ := underscore_split _ _ _ _
    (repr_no_underscore d1) (repr_no_underscore d2) hdata
  constructor
  · exact repr_injective (by rw [repr_data_eq, repr_data_eq] at h1; exact String.ext h1)
  · exact repr_injective (by rw [repr_data_eq, repr_data_eq] at h2; exact String.ext h2)

theorem strKeys_eq_map (evs : List StreamEvent) :
    strKeys evs = (actPairs evs).map (fun p => jsKey p.1 p.2) := by
  induction evs with
  | nil => rfl
  | cons ev evs ih =>
    cases ev <;> simp only [strKeys, actPairs, List.filterMap_cons] <;>
      simp only [strKeys, actPairs] at ih <;> simp [ih]

theorem mem_strKeys (k : String) (evs : List StreamEvent) :
    k ∈ strKeys evs ↔
      ∃ d a data, StreamEvent.activityEnriched d a data ∈ evs ∧ jsKey d a = k := by
  constructor
  · intro h
    obtain ⟨ev, hev, hmatch⟩ := List.mem_filterMap.mp h
    cases ev with
    | activityEnriched d a data =>
      exact ⟨d, a, data, hev, Option.some.inj hmatch⟩
    | transportTo data => cases hmatch
    | transportBack data => cases hmatch
    | complete => cases hmatch
    | errorEvent m => cases hmatch
  · rintro ⟨d, a, data, hev, rfl⟩
    exact List.mem_filterMap.mpr ⟨StreamEvent.activityEnriched d a data, hev, rfl⟩

theorem nodup_strKeys_stream {α : Type} (plan : List (List α))
    (f : Nat → Nat → Option String) (tTo tBack : Option String) :
    (strKeys (streamEvents plan f tTo tBack)).Nodup := by
  rw [strKeys_eq_map]
  refine List.Nodup.map ?_ ?_
  · intro p1 p2 h
    obtain ⟨h1, h2⟩ := jsKey_inj h
    cases p1; cases p2
    simp only at h1 h2
    simp [h1, h2]
  · simp only [streamEvents, actPairs, List.filterMap_cons, List.filterMap_append]
    have := nodup_actPairs_activityEventsFrom f plan 0
    simp only [actPairs] at this
    simpa using this

theorem replay_enriched_of_not_mem :
    ∀ (evs : List StreamEvent) (st : ViewState) (k : String), k ∉ strKeys evs →
      (replay st evs).enrichedActivities k = st.enrichedActivities k := by
  intro evs
  induction evs with
  | nil => intro st k _; rfl
  | cons ev evs ih =>
    intro st k hk
    have hk2 : k ∉ strKeys evs := by
      intro h
      apply hk
      obtain ⟨d, a, data, hev, hkey⟩ := (mem_strKeys k evs).mp h
      exact (mem_strKeys k (ev :: evs)).mpr ⟨d, a, data, List.mem_cons_of_mem _ hev, hkey⟩
    rw [replay, List.foldl_cons, ← replay, ih (onMessage st ev) k hk2]
    cases ev with
    | activityEnriched d a data =>
      have hk1 : k ≠ jsKey d a := by
        intro heq
        exact hk ((mem_strKeys _ _).mpr ⟨d, a, data, List.mem_cons_self _ _, heq.symm⟩)
      simp [onMessage, setKey, hk1]
    | transportTo data => rfl
    | transportBack data => rfl
    | complete => rfl
    | errorEvent m => rfl

theorem replay_enriched_of_writer :
    ∀ (evs : List StreamEvent) (st : ViewState) (d a : Nat) (data : String),
      StreamEvent.activityEnriched d a data ∈ evs →
      (strKeys evs).Nodup →
      (replay st evs).enrichedActivities (jsKey d a) = some data := by
  intro evs
  induction evs with
  | nil => intro st d a data h _; cases h
  | cons ev evs ih =>
    intro st d a data hmem hnd
    rcases List.mem_cons.mp hmem with rfl | hmem2
    · have hkey : jsKey d a ∉ strKeys evs := by
        have h2 : strKeys (StreamEvent.activityEnriched d a data :: evs)
            = jsKey d a :: strKeys evs := by
          simp [strKeys, List.filterMap_cons]
        rw [h2] at hnd
        exact (List.nodup_cons.mp hnd).1
      rw [replay, List.foldl_cons, ← replay,
        replay_enriched_of_not_mem evs _ _ hkey]
      simp [onMessage, setKey]
    · have hnd2 : (strKeys evs).Nodup := by
        cases ev <;> simp only [strKeys, List.filterMap_cons] at hnd <;>
          first
          | exact (List.nodup_cons.mp hnd).2
          | exact hnd
      rw [replay, List.foldl_cons, ← replay]
      exact ih (onMessage st ev) d a data hmem2 hnd2

theorem replay_enriched_some_source :
    ∀ (evs : List StreamEvent) (st : ViewState) (k : String) (v : String),
      (replay st evs).enrichedActivities k = some v →
      st.enrichedActivities k = some v ∨ k ∈ strKeys evs := by
  intro evs
  induction evs with
  | nil => intro st k v h; exact Or.inl h
  | cons ev evs ih =>
    intro st k v h
    rw [replay, List.foldl_cons, ← replay] at h
    rcases ih (onMessage st ev) k v h with h2 | h2
    · cases ev with
      | activityEnriched d a data =>
        simp only [onMessage, setKey] at h2
        by_cases hk : k = jsKey d a
        · exact Or.inr ((mem_strKeys _ _).mpr ⟨d, a, data, List.mem_cons_self _ _, hk.symm⟩)
        · rw [if_neg hk] at h2
          exact Or.inl h2
      | transportTo data => exact Or.inl h2
      | transportBack data => exact Or.inl h2
      | complete => exact Or.inl h2
      | errorEvent m => exact Or.inl h2
    · refine Or.inr ?_
      obtain ⟨d, a, data, hev, hkey⟩ := (mem_strKeys k evs).mp h2
      exact (mem_strKeys k _).mpr ⟨d, a, data, List.mem_cons_of_mem _ hev, hkey⟩

/-- C9: the enrichment map is append-only within one streaming session —
along any prefix order of a stream, once a key holds a payload it still
holds it at every later point — and `enrichSingleActivity` keeps the cached
payload of an already-enriched key (idempotent completion). -/
theorem enrichment_append_only {α : Type} (plan : List (List α))
    (f : Nat → Nat → Option String) (tTo tBack : Option String) :
    (∀ l1 l2 k v, l1 <+: l2 → l2 <+: streamEvents plan f tTo tBack →
      (replay initialView l1).enrichedActivities k = some v →
      (replay initialView l2).enrichedActivities k = some v)
    ∧ (∀ (st : ViewState) (d a : Nat) (data w : String),
        st.enrichedActivities (jsKey d a) = some w →
        (enrichSingleActivity st d a data).enrichedActivities (jsKey d a) = some w) := by
  constructor
  · intro l1 l2 k v h12 h2 hpop
    obtain ⟨mid, rfl⟩ := h12
    have hnd : (strKeys (l1 ++ mid)).Nodup := by
      have hsub : (strKeys (l1 ++ mid)).Sublist (strKeys (streamEvents plan f tTo tBack)) :=
        List.Sublist.filterMap _ h2.sublist
      exact (nodup_strKeys_stream plan f tTo tBack).sublist hsub
    have hk1 : k ∈ strKeys l1 := by
      rcases replay_enriched_some_source l1 initialView k v hpop with h3 | h3
      · simp [initialView] at h3
      · exact h3
    have hkmid : k ∉ strKeys mid := by
      intro hk2
      rw [strKeys, List.filterMap_append, ← strKeys, ← strKeys] at hnd
      exact (List.disjoint_of_nodup_append hnd) hk1 hk2
    rw [replay, List.foldl_append, ← replay, ← replay,
      replay_enriched_of_not_mem mid _ k hkmid]
    exact hpop
  · intro st d a data w h
    unfold enrichSingleActivity
    rw [if_pos (by simp [h])]
    exact h

/-- Witness for C9: on a one-activity plan, the payload stored for key 0_0
after two events persists after three, and a second enrichment of the same
key keeps the cached payload. -/
theorem enrichment_append_only_witness :
    (replay initialView
        (List.take 3 (streamEvents [["louvre"]] (fun _ _ => some "pay") (some "t") (some "b")))).enrichedActivities
      (jsKey 0 0) = some "pay" :=
  (enrichment_append_only [["louvre"]] (fun _ _ => some "pay") (some "t") (some "b")).1
    (List.take 2 (streamEvents [["louvre"]] (fun _ _ => some "pay") (some "t") (some "b")))
    (List.take 3 (streamEvents [["louvre"]] (fun _ _ => some "pay") (some "t") (some "b")))
    (jsKey 0 0) "pay"
    (by simp [streamEvents, activityEventsFrom, dayEvents])
    (List.take_prefix _ _)
    (by rfl)

theorem replay_transportTo_of_none :
    ∀ (evs : List StreamEvent) (st : ViewState), toPayloads evs = [] →
      (replay st evs).transportationTo = st.transportationTo := by
  intro evs
  induction evs with
  | nil => intro st _; rfl
  | cons ev evs ih =>
    intro st h
    rw [replay, List.foldl_cons, ← replay]
    cases ev with
    | transportTo p => simp [toPayloads, List.filterMap_cons] at h
    | activityEnriched d a data =>
      rw [ih _ (by simpa [toPayloads, List.filterMap_cons] using h)]; rfl
    | transportBack p =>
      rw [ih _ (by simpa [toPayloads, List.filterMap_cons] using h)]; rfl
    | complete =>
      rw [ih _ (by simpa [toPayloads, List.filterMap_cons] using h)]; rfl
    | errorEvent m =>
      rw [ih _ (by simpa [toPayloads, List.filterMap_cons] using h)]; rfl

theorem replay_transportTo_of_one :
    ∀ (evs : List StreamEvent) (st : ViewState) (p : String), toPayloads evs = [p] →
      (replay st evs).transportationTo = some p := by
  intro evs
  induction evs with
  | nil => intro st p h; simp [toPayloads] at h
  | cons ev evs ih =>
    intro st p h
    rw [replay, List.foldl_cons, ← replay]
    cases ev with
    | transportTo q =>
      have h2 : q = p ∧ toPayloads evs = [] := by
        simpa [toPayloads, List.filterMap_cons] using h
      rw [replay_transportTo_of_none evs _ h2.2]
      simp [onMessage, h2.1]
    | activityEnriched d a data =>
      exact ih _ p (by simpa [toPayloads, List.filterMap_cons] using h)
    | transportBack q =>
      exact ih _ p (by simpa [toPayloads, List.filterMap_cons] using h)
    | complete =>
      exact ih _ p (by simpa [toPayloads, List.filterMap_cons] using h)
    | errorEvent m =>
      exact ih _ p (by simpa [toPayloads, List.filterMap_cons] using h)

theorem replay_transportBack_of_none :
    ∀ (evs : List StreamEvent) (st : ViewState), backPayloads evs = [] →
      (replay st evs).transportationBack = st.transportationBack := by
  intro evs
  induction evs with
  | nil => intro st _; rfl
  | cons ev evs ih =>
    intro st h
    rw [replay, List.foldl_cons, ← replay]
    cases ev with
    | transportBack p => simp [backPayloads, List.filterMap_cons] at h
    | activityEnriched d a data =>
      rw [ih _ (by simpa [backPayloads, List.filterMap_cons] using h)]; rfl
    | transportTo p =>
      rw [ih _ (by simpa [backPayloads, List.filterMap_cons] using h)]; rfl
    | complete =>
      rw [ih _ (by simpa [backPayloads, List.filterMap_cons] using h)]; rfl
    | errorEvent m =>
      rw [ih _ (by simpa [backPayloads, List.filterMap_cons] using h)]; rfl

theorem replay_transportBack_of_one :
    ∀ (evs : List StreamEvent) (st : ViewState) (p : String), backPayloads evs = [p] →
      (replay st evs).transportationBack = some p := by
  intro evs
  induction evs with
  | nil => intro st p h; simp [backPayloads] at h
  | cons ev evs ih =>
    intro st p h
    rw [replay, List.foldl_cons, ← replay]
    cases ev with
    | transportBack q =>
      have h2 : q = p ∧ backPayloads evs = [] := by
        simpa [backPayloads, List.filterMap_cons] using h
      rw [replay_transportBack_of_none evs _ h2.2]
      simp [onMessage, h2.1]
    | activityEnriched d a data =>
      exact ih _ p (by simpa [backPayloads, List.filterMap_cons] using h)
    | transportTo q =>
      exact ih _ p (by simpa [backPayloads, List.filterMap_cons] using h)
    | complete =>
      exact ih _ p (by simpa [backPayloads, List.filterMap_cons] using h)
    | errorEvent m =>
      exact ih _ p (by simpa [backPayloads, List.filterMap_cons] using h)

theorem toPayloads_actEvents {α : Type} (f : Nat → Nat → Option String)
    (plan : List (List α)) (d : Nat) :
    toPayloads (activityEventsFrom f d plan) = [] := by
  refine List.filterMap_eq_nil_iff.mpr ?_
  intro ev hev
  obtain ⟨d2, a, s, rfl⟩ := actEvents_all_activity f plan d ev hev
  rfl

theorem backPayloads_actEvents {α : Type} (f : Nat → Nat → Option String)
    (plan : List (List α)) (d : Nat) :
    backPayloads (activityEventsFrom f d plan) = [] := by
  refine List.filterMap_eq_nil_iff.mpr ?_
  intro ev hev
  obtain ⟨d2, a, s, rfl⟩ := actEvents_all_activity f plan d ev hev
  rfl

theorem toPayloads_stream {α : Type} (plan : List (List α))
    (f : Nat → Nat → Option String) (tTo tBack : Option String) :
    toPayloads (streamEvents plan f tTo tBack) = [tTo.getD placeholderPayload] := by
  simp only [streamEvents, toPayloads, List.filterMap_cons, List.filterMap_append]
  have := toPayloads_actEvents f plan 0
  simp only [toPayloads] at this
  rw [this]
  rfl

theorem backPayloads_stream {α : Type} (plan : List (List α))
    (f : Nat → Nat → Option String) (tTo tBack : Option String) :
    backPayloads (streamEvents plan f tTo tBack) = [tBack.getD placeholderPayload] := by
  simp only [streamEvents, backPayloads, List.filterMap_cons, List.filterMap_append]
  have := backPayloads_actEvents f plan 0
  simp only [backPayloads] at this
  rw [this]
  rfl

/-- C6: every event of a stream is self-describing — tagged with its kind,
and every enrichment event carries its unit key and payload — so the final
consumer placement (the enrichment map and the two transport fields) is the
same for any arrival order of the events. -/
theorem events_self_describing {α : Type} (plan : List (List α))
    (f : Nat → Nat → Option String) (tTo tBack : Option String)
    (evs2 : List StreamEvent)
    (hperm : evs2.Perm (streamEvents plan f tTo tBack)) :
    (∀ ev ∈ streamEvents plan f tTo tBack,
        ((eventKey ev).isSome ∧ (eventPayload ev).isSome ∧ kindOf ev ≠ EventKind.completeMark)
        ∨ (ev = StreamEvent.complete ∧ kindOf ev = EventKind.completeMark))
    ∧ (∀ k, (replay initialView evs2).enrichedActivities k
        = (replay initialView (streamEvents plan f tTo tBack)).enrichedActivities k)
    ∧ (replay initialView evs2).transportationTo
        = (replay initialView (streamEvents plan f tTo tBack)).transportationTo
    ∧ (replay initialView evs2).transportationBack
        = (replay initialView (streamEvents plan f tTo tBack)).transportationBack := by
  refine ⟨?_, ?_, ?_, ?_⟩
  · intro ev hev
    rcases List.mem_cons.mp hev with rfl | hev2
    · exact Or.inl ⟨rfl, rfl, by simp [kindOf]⟩
    rcases List.mem_append.mp hev2 with hev3 | hev3
    · obtain ⟨d2, a, s, rfl⟩ := actEvents_all_activity f plan 0 ev hev3
      exact Or.inl ⟨rfl, rfl, by simp [kindOf]⟩
    · rcases List.mem_cons.mp hev3 with rfl | hev4
      · exact Or.inl ⟨rfl, rfl, by simp [kindOf]⟩
      · rcases List.mem_cons.mp hev4 with rfl | hev5
        · exact Or.inr ⟨rfl, rfl⟩
        · cases hev5
  · intro k
    have hnd : (strKeys (streamEvents plan f tTo tBack)).Nodup :=
      nodup_strKeys_stream plan f tTo tBack
    have hperm2 : (strKeys evs2).Perm (strKeys (streamEvents plan f tTo tBack)) :=
      hperm.filterMap _
    have hnd2 : (strKeys evs2).Nodup := hperm2.nodup_iff.mpr hnd
    by_cases hk : k ∈ strKeys (streamEvents plan f tTo tBack)
    · obtain ⟨d, a, data, hev, hkey⟩ := (mem_strKeys k _).mp hk
      subst hkey
      rw [replay_enriched_of_writer _ initialView d a data hev hnd,
        replay_enriched_of_writer _ initialView d a data (hperm.mem_iff.mpr hev) hnd2]
    · have hk2 : k ∉ strKeys evs2 := fun h => hk (hperm2.mem_iff.mp h)
      rw [replay_enriched_of_not_mem _ initialView k hk2,
        replay_enriched_of_not_mem _ initialView k hk]
  · have h1 := toPayloads_stream plan f tTo tBack
    have h2 : toPayloads evs2 = [tTo.getD placeholderPayload] := by
      have := (hperm.filterMap (fun ev =>
        match ev with
        | StreamEvent.transportTo p => some p
        | _ => none))
      rw [show (List.filterMap _ (streamEvents plan f tTo tBack)) =
          toPayloads (streamEvents plan f tTo tBack) from rfl, h1] at this
      exact List.perm_singleton.mp this
    rw [replay_transportTo_of_one _ _ _ h2,
      replay_transportTo_of_one _ _ _ h1]
  · have h1 := backPayloads_stream plan f tTo tBack
    have h2 : backPayloads evs2 = [tBack.getD placeholderPayload] := by
      have := (hperm.filterMap (fun ev =>
        match ev with
        | StreamEvent.transportBack p => some p
        | _ => none))
      rw [show (List.filterMap _ (streamEvents plan f tTo tBack)) =
          backPayloads (streamEvents plan f tTo tBack) from rfl, h1] at this
      exact List.perm_singleton.mp this
    rw [replay_transportBack_of_one _ _ _ h2,
      replay_transportBack_of_one _ _ _ h1]

/-- Witness for C6: with the first two events of a concrete stream swapped,
the consumer still ends with the same transport-to placement. -/
theorem events_self_describing_witness :
    (replay initialView
        [StreamEvent.activityEnriched 0 0 "pay", StreamEvent.transportTo "t",
          StreamEvent.transportBack "b", StreamEvent.complete]).transportationTo
      = (replay initialView
          (streamEvents [["louvre"]] (fun _ _ => some "pay") (some "t") (some "b"))).transportationTo :=
  (events_self_describing [["louvre"]] (fun _ _ => some "pay") (some "t") (some "b")
    [StreamEvent.activityEnriched 0 0 "pay", StreamEvent.transportTo "t",
      StreamEvent.transportBack "b", StreamEvent.complete]
    (List.Perm.swap (StreamEvent.transportTo "t") (StreamEvent.activityEnriched 0 0 "pay")
      [StreamEvent.transportBack "b", StreamEvent.complete])).2.2.1

theorem mem_dayEvents_intro {α : Type} (f : Nat → Nat → Option String) (d : Nat) :
    ∀ (acts : List α) (a0 j : Nat), j < acts.length →
      StreamEvent.activityEnriched d (a0 + j) (enrichOutcome f d (a0 + j)) ∈
        dayEvents f d a0 acts := by
  intro acts
  induction acts with
  | nil => intro a0 j h; simp at h
  | cons x acts ih =>
    intro a0 j h
    cases j with
    | zero => simp [dayEvents]
    | succ j =>
      have h2 : a0 + (j + 1) = (a0 + 1) + j := by omega
      rw [h2]
      exact List.mem_cons_of_mem _ (ih (a0 + 1) j (by simpa using Nat.lt_of_succ_lt_succ h))

theorem mem_actEvents_intro {α : Type} (f : Nat → Nat → Option String) :
    ∀ (plan : List (List α)) (d0 dd a : Nat) (acts : List α),
      plan.get? dd = some acts → a < acts.length →
      StreamEvent.activityEnriched (d0 + dd) a (enrichOutcome f (d0 + dd) a) ∈
        activityEventsFrom f d0 plan := by
  intro plan
  induction plan with
  | nil => intro d0 dd a acts h _; simp at h
  | cons acts0 days ih =>
    intro d0 dd a acts h ha
    cases dd with
    | zero =>
      simp only [List.get?] at h
      obtain rfl := Option.some.inj h
      refine List.mem_append.mpr (Or.inl ?_)
      have := mem_dayEvents_intro f d0 acts0 0 a ha
      simpa using this
    | succ dd =>
      have h2 : d0 + (dd + 1) = (d0 + 1) + dd := by omega
      rw [h2]
      exact List.mem_append.mpr (Or.inr (ih (d0 + 1) dd a acts h ha))

theorem dayEvents_shape {α : Type} (f g : Nat → Nat → Option String) (d : Nat) :
    ∀ (acts : List α) (a : Nat),
      (dayEvents f d a acts).map eventShape = (dayEvents g d a acts).map eventShape := by
  intro acts
  induction acts with
  | nil => intro a; rfl
  | cons x acts ih =>
    intro a
    simp only [dayEvents, List.map_cons]
    rw [ih (a + 1)]
    rfl

theorem actEvents_shape {α : Type} (f g : Nat → Nat → Option String) :
    ∀ (plan : List (List α)) (d : Nat),
      (activityEventsFrom f d plan).map eventShape
        = (activityEventsFrom g d plan).map eventShape := by
  intro plan
  induction plan with
  | nil => intro d; rfl
  | cons acts days ih =>
    intro d
    simp only [activityEventsFrom, List.map_append]
    rw [dayEvents_shape f g d acts 0, ih (d + 1)]

/-- C8: the failure of a single enrichment unit is never fatal — the failed
unit is still emitted, carrying the placeholder payload, the stream keeps
the exact shape (kinds and keys) it has with any other outcomes, and the
stream still terminates with the completion marker. -/
theorem unit_failure_recovered {α : Type} (plan : List (List α))
    (f g : Nat → Nat → Option String) (tTo tBack tTo2 tBack2 : Option String)
    (d a : Nat) (acts : List α)
    (hpos : plan.get? d = some acts) (ha : a < acts.length)
    (hfail : f d a = none) :
    StreamEvent.activityEnriched d a placeholderPayload ∈ streamEvents plan f tTo tBack
    ∧ (streamEvents plan f tTo tBack).map eventShape
        = (streamEvents plan g tTo2 tBack2).map eventShape
    ∧ (streamEvents plan f tTo tBack).getLast? = some StreamEvent.complete := by
  refine ⟨?_, ?_, ?_⟩
  · have := mem_actEvents_intro f plan 0 d a acts hpos ha
    simp only [Nat.zero_add] at this
    have hph : enrichOutcome f d a = placeholderPayload := by
      simp [enrichOutcome, hfail]
    rw [hph] at this
    exact List.mem_cons_of_mem _ (List.mem_append.mpr (Or.inl this))
  · simp only [streamEvents, List.map_cons, List.map_append]
    rw [actEvents_shape f g plan 0]
    rfl
  · simp only [streamEvents]
    rw [show StreamEvent.transportTo (tTo.getD placeholderPayload) ::
        activityEventsFrom f 0 plan ++
          [StreamEvent.transportBack (tBack.getD placeholderPayload), StreamEvent.complete]
      = (StreamEvent.transportTo (tTo.getD placeholderPayload) ::
          activityEventsFrom f 0 plan ++
            [StreamEvent.transportBack (tBack.getD placeholderPayload)]) ++
          [StreamEvent.complete] by simp]
    exact List.getLast?_concat _

/-- Witness for C8: the only activity unit of a one-activity plan fails, yet
its placeholder event is emitted. -/
theorem unit_failure_recovered_witness :
    StreamEvent.activityEnriched 0 0 placeholderPayload ∈
      streamEvents [["louvre"]] (fun _ _ => none) (some "t") (some "b") :=
  (unit_failure_recovered [["louvre"]] (fun _ _ => none) (fun _ _ => some "x")
    (some "t") (some "b") none none 0 0 ["louvre"] rfl (by decide) rfl).1

theorem runRounds_invariant :
    ∀ (rounds : List (List (String × String) × (String × String)))
      (st0 : AltState) (j : Nat) (hj : j < ((runRounds st0 rounds).2).length),
      (∀ k ∈ st0.rejected, k ∈ (((runRounds st0 rounds).2).get ⟨j, hj⟩).requestRejected)
      ∧ (∀ dst ∈ chosenBefore st0 rounds j,
          destKey dst.1 dst.2 ∈ (((runRounds st0 rounds).2).get ⟨j, hj⟩).requestRejected)
      ∧ (∀ rec ∈ (((runRounds st0 rounds).2).get ⟨j, hj⟩).recommendations,
          destKey rec.1 rec.2 ∉ (((runRounds st0 rounds).2).get ⟨j, hj⟩).requestRejected) := by
  intro rounds
  induction rounds with
  | nil => intro st0 j hj; simp [runRounds] at hj
  | cons round rest ih =>
    intro st0 j hj
    obtain ⟨pool, next⟩ := round
    cases j with
    | zero =>
      refine ⟨?_, ?_, ?_⟩
      · intro k hk
        simp [runRounds, altRound]
        exact Or.inl hk
      · intro dst hdst
        simp only [chosenBefore, List.take_zero, List.map_nil] at hdst
        rcases List.mem_cons.mp hdst with rfl | hdst2
        · simp [runRounds, altRound]
        · cases hdst2
      · intro rec hrec
        simp only [runRounds, altRound, List.get] at hrec ⊢
        have := List.mem_filter.mp hrec
        intro hmem
        have hcontains : (st0.rejected ++
            [destKey st0.current.1 st0.current.2]).contains (destKey rec.1 rec.2) = true :=
          List.elem_eq_true_of_mem hmem
        rw [hcontains] at this
        simpa using this.2
    | succ j =>
      have hj2 : j < ((runRounds (altRound st0 pool next).1 rest).2).length := by
        simpa [runRounds] using hj
      obtain ⟨ih1, ih2, ih3⟩ := ih (altRound st0 pool next).1 j hj2
      have hget : ((runRounds st0 ((pool, next) :: rest)).2).get ⟨j + 1, hj⟩
          = ((runRounds (altRound st0 pool next).1 rest).2).get ⟨j, hj2⟩ := by
        simp [runRounds]
      refine ⟨?_, ?_, ?_⟩
      · intro k hk
        rw [hget]
        refine ih1 k ?_
        simp [altRound]
        exact Or.inl hk
      · intro dst hdst
        rw [hget]
        simp only [chosenBefore, List.take_succ_cons, List.map_cons] at hdst
        rcases List.mem_cons.mp hdst with rfl | hdst2
        · refine ih1 _ ?_
          simp [altRound]
        · rcases List.mem_cons.mp hdst2 with rfl | hdst3
          · exact ih2 _ (List.mem_cons_self _ _)
          · exact ih2 _ (List.mem_cons_of_mem _ hdst3)
      · intro rec hrec
        rw [hget] at hrec ⊢
        exact ih3 rec hrec

/-- C7: in every alternatives round, the previously chosen destinations —
identified by their `name, country` keys — are all in the exclusion list
sent with the request, and no recommendation returned in that round or any
later round carries the key of a previously chosen destination. -/
theorem alternatives_exclusion
    (st0 : AltState) (rounds : List (List (String × String) × (String × String)))
    (j : Nat) (hj : j < ((runRounds st0 rounds).2).length)
    (dst : String × String) (hch : dst ∈ chosenBefore st0 rounds j) :
    destKey dst.1 dst.2 ∈ (((runRounds st0 rounds).2).get ⟨j, hj⟩).requestRejected
    ∧ ∀ rec ∈ (((runRounds st0 rounds).2).get ⟨j, hj⟩).recommendations,
        destKey rec.1 rec.2 ≠ destKey dst.1 dst.2 := by
  obtain ⟨_, h2, h3⟩ := runRounds_invariant rounds st0 j hj
  refine ⟨h2 dst hch, ?_⟩
  intro rec hrec heq
  exact h3 rec hrec (heq ▸ h2 dst hch)

/-- Witness for C7: a two-round session in which the second round's request
still excludes the destination chosen at the start. -/
theorem alternatives_exclusion_witness :
    destKey "Paris" "France" ∈
      (((runRounds { rejected := [], current := ("Paris", "France") }
          [([("Rome", "Italy"), ("Paris", "France")], ("Rome", "Italy")),
            ([("Paris", "France"), ("Lisbon", "Portugal")], ("Lisbon", "Portugal"))]).2).get
        ⟨1, by decide⟩).requestRejected
    ∧ ∀ rec ∈
        (((runRounds { rejected := [], current := ("Paris", "France") }
            [([("Rome", "Italy"), ("Paris", "France")], ("Rome", "Italy")),
              ([("Paris", "France"), ("Lisbon", "Portugal")], ("Lisbon", "Portugal"))]).2).get
          ⟨1, by decide⟩).recommendations,
        destKey rec.1 rec.2 ≠ destKey "Paris" "France" :=
  alternatives_exclusion { rejected := [], current := ("Paris", "France") }
    [([("Rome", "Italy"), ("Paris", "France")], ("Rome", "Italy")),
      ([("Paris", "France"), ("Lisbon", "Portugal")], ("Lisbon", "Portugal"))]
    1 (by decide) ("Paris", "France") (by decide)

theorem cleanedBody_cons_none (k : String) (es : List (String × Option JVal)) :
    cleanedBody ((k, none) :: es) = cleanedBody es := rfl

theorem cleanedBody_cons_some {v : JVal} (hv : v ≠ JVal.str "") (k : String)
    (es : List (String × Option JVal)) :
    cleanedBody ((k, some v) :: es) = (k, v) :: cleanedBody es := by
  simp only [cleanedBody, List.filterMap_cons]
  rw [if_neg hv]

theorem lookup_cleanedBody_skip {k k2 : String} (hne : k2 ≠ k) (v2 : Option JVal)
    (es : List (String × Option JVal)) :
    List.lookup k (cleanedBody ((k2, v2) :: es)) = List.lookup k (cleanedBody es) := by
  cases v2 with
  | none => rfl
  | some w =>
    by_cases hw : w = JVal.str ""
    · simp only [cleanedBody, List.filterMap_cons]
      rw [if_pos hw]
    · rw [cleanedBody_cons_some hw]
      have hb : (k == k2) = false := by simp [Ne.symm hne]
      simp [List.lookup, hb]

theorem lookup_cleanedBody_head {k : String} {v : JVal} (hv : v ≠ JVal.str "")
    (es : List (String × Option JVal)) :
    List.lookup k (cleanedBody ((k, some v) :: es)) = some v := by
  rw [cleanedBody_cons_some hv]
  simp [List.lookup]

theorem lookup_cleanedBody_none {k : String} :
    ∀ (es : List (String × Option JVal)), (∀ e ∈ es, e.1 ≠ k) →
      List.lookup k (cleanedBody es) = none := by
  intro es
  induction es with
  | nil => intro _; rfl
  | cons e es ih =>
    intro h
    obtain ⟨k2, v2⟩ := e
    rw [lookup_cleanedBody_skip (h (k2, v2) (List.mem_cons_self _ es)) v2 es]
    exact ih fun e2 he2 => h e2 (List.mem_cons_of_mem _ he2)

theorem cleanedBody_no_empty (es : List (String × Option JVal)) :
    ∀ k v, (k, v) ∈ cleanedBody es → v ≠ JVal.str "" := by
  intro k v h
  obtain ⟨e, he, hmatch⟩ := List.mem_filterMap.mp h
  cases hv2 : e.2 with
  | none => rw [hv2] at hmatch; cases hmatch
  | some w =>
    rw [hv2] at hmatch
    simp only at hmatch
    by_cases hw : w = JVal.str ""
    · rw [if_pos hw] at hmatch; cases hmatch
    · rw [if_neg hw] at hmatch
      have h2 := Option.some.inj hmatch
      have hvw : w = v := congrArg Prod.snd h2
      rw [← hvw]; exact hw

/-- C10: every request body `handleSubmit` sends contains no key bound to
`undefined` or the empty string; the `dates` field is present exactly when
both dates are set, formatted `start to end`; and `budget` is
`parseFloat(budget_custom)` when a custom amount is given, else the selected
range's mapped value, else absent. -/
theorem handleSubmit_body_spec (pf : String → Rat) (mode : PlanMode) (fd : FormData)
    (body : List (String × JVal)) (h : handleSubmit pf mode fd = some body) :
    (∀ k v, (k, v) ∈ body → v ≠ JVal.str "")
    ∧ (fd.start_date ≠ "" ∧ fd.end_date ≠ "" →
        body.lookup "dates" = some (JVal.str (fd.start_date ++ " to " ++ fd.end_date)))
    ∧ (fd.start_date = "" ∨ fd.end_date = "" → body.lookup "dates" = none)
    ∧ (fd.budget_custom ≠ "" →
        body.lookup "budget" = some (JVal.num (pf fd.budget_custom)))
    ∧ (∀ r, fd.budget_custom = "" → budgetRanges fd.budget_range = some r →
        body.lookup "budget" = some (JVal.num r))
    ∧ (fd.budget_custom = "" ∧ fd.budget_range = "" → body.lookup "budget" = none) := by
  unfold handleSubmit at h
  cases hb : computeBudget pf fd with
  | error u => rw [hb] at h; cases h
  | ok budget =>
    rw [hb] at h
    obtain rfl : cleanedBody (submitEntries mode fd budget) = body := Option.some.inj h
    refine ⟨cleanedBody_no_empty _, ?_, ?_, ?_, ?_, ?_⟩
    · rintro ⟨hs, he⟩
      have hdf : datesField fd = fd.start_date ++ " to " ++ fd.end_date :=
        if_pos ⟨hs, he⟩
      have hne2 : fd.start_date ++ " to " ++ fd.end_date ≠ "" := by
        intro heq
        have hlen := congrArg String.length heq
        rw [String.length_append, String.length_append] at hlen
        have h4 : (" to " : String).length = 4 := rfl
        have h0 : ("" : String).length = 0 := rfl
        rw [h4, h0] at hlen
        omega
      have hnv : JVal.str (fd.start_date ++ " to " ++ fd.end_date) ≠ JVal.str "" :=
        fun hc => hne2 (JVal.str.inj hc)
      cases mode with
      | discover =>
        simp only [submitEntries, submitEntriesBase]
        rw [hdf, if_neg hne2]
        exact lookup_cleanedBody_head hnv _
      | custom =>
        simp only [submitEntries, submitEntriesBase, List.cons_append, List.nil_append]
        rw [hdf, if_neg hne2]
        exact lookup_cleanedBody_head hnv _
    · intro hcond
      have hdf : datesField fd = "" := by
        rw [datesField, if_neg]
        rintro ⟨hs, he⟩
        rcases hcond with h2 | h2
        · exact hs h2
        · exact he h2
      cases mode with
      | discover =>
        simp only [submitEntries, submitEntriesBase]
        rw [hdf, if_pos rfl, cleanedBody_cons_none]
        refine lookup_cleanedBody_none _ ?_
        intro e he
        simp only [List.mem_cons, List.not_mem_nil, or_false] at he
        rcases he with rfl | rfl | rfl | rfl | rfl | rfl | rfl | rfl <;> simp
      | custom =>
        simp only [submitEntries, submitEntriesBase, List.cons_append, List.nil_append]
        rw [hdf, if_pos rfl, cleanedBody_cons_none]
        refine lookup_cleanedBody_none _ ?_
        intro e he
        simp only [List.mem_cons, List.not_mem_nil, or_false] at he
        rcases he with rfl | rfl | rfl | rfl | rfl | rfl | rfl | rfl | rfl | rfl | rfl <;> simp
    · intro hcust
      have hbudget : budget = some (pf fd.budget_custom) := by
        unfold computeBudget at hb
        rw [if_pos hcust] at hb
        exact (Except.ok.inj hb).symm
      have hnv : JVal.num (pf fd.budget_custom) ≠ JVal.str "" := fun hc => JVal.noConfusion hc
      cases mode with
      | discover =>
        simp only [submitEntries, submitEntriesBase]
        rw [lookup_cleanedBody_skip (by decide : ("dates" : String) ≠ "budget") _ _,
          lookup_cleanedBody_skip (by decide : ("departure_city" : String) ≠ "budget") _ _,
          hbudget]
        simp only [Option.map_some']
        exact lookup_cleanedBody_head hnv _
      | custom =>
        simp only [submitEntries, submitEntriesBase, List.cons_append, List.nil_append]
        rw [lookup_cleanedBody_skip (by decide : ("dates" : String) ≠ "budget") _ _,
          lookup_cleanedBody_skip (by decide : ("departure_city" : String) ≠ "budget") _ _,
          hbudget]
        simp only [Option.map_some']
        exact lookup_cleanedBody_head hnv _
    · intro r hcust hr
      have hbudget : budget = some r := by
        unfold computeBudget at hb
        rw [if_neg (by simp [hcust])] at hb
        have hrange : fd.budget_range ≠ "" := by
          intro h0
          rw [h0] at hr
          simp [budgetRanges] at hr
        rw [if_pos hrange, hr] at hb
        exact (Except.ok.inj hb).symm
      have hnv : JVal.num r ≠ JVal.str "" := fun hc => JVal.noConfusion hc
      cases mode with
      | discover =>
        simp only [submitEntries, submitEntriesBase]
        rw [lookup_cleanedBody_skip (by decide : ("dates" : String) ≠ "budget") _ _,
          lookup_cleanedBody_skip (by decide : ("departure_city" : String) ≠ "budget") _ _,
          hbudget]
        simp only [Option.map_some']
        exact lookup_cleanedBody_head hnv _
      | custom =>
        simp only [submitEntries, submitEntriesBase, List.cons_append, List.nil_append]
        rw [lookup_cleanedBody_skip (by decide : ("dates" : String) ≠ "budget") _ _,
          lookup_cleanedBody_skip (by decide : ("departure_city" : String) ≠ "budget") _ _,
          hbudget]
        simp only [Option.map_some']
        exact lookup_cleanedBody_head hnv _
    · rintro ⟨hcust, hrange⟩
      have hbudget : budget = none := by
        unfold computeBudget at hb
        rw [if_neg (by simp [hcust]), if_neg (by simp [hrange])] at hb
        exact (Except.ok.inj hb).symm
      cases mode with
      | discover =>
        simp only [submitEntries, submitEntriesBase]
        rw [lookup_cleanedBody_skip (by decide : ("dates" : String) ≠ "budget") _ _,
          lookup_cleanedBody_skip (by decide : ("departure_city" : String) ≠ "budget") _ _,
          hbudget]
        simp only [Option.map_none']
        rw [cleanedBody_cons_none]
        refine lookup_cleanedBody_none _ ?_
        intro e he
        simp only [List.mem_cons, List.not_mem_nil, or_false] at he
        rcases he with rfl | rfl | rfl | rfl | rfl | rfl <;> simp
      | custom =>
        simp only [submitEntries, submitEntriesBase, List.cons_append, List.nil_append]
        rw [lookup_cleanedBody_skip (by decide : ("dates" : String) ≠ "budget") _ _,
          lookup_cleanedBody_skip (by decide : ("departure_city" : String) ≠ "budget") _ _,
          hbudget]
        simp only [Option.map_none']
        rw [cleanedBody_cons_none]
        refine lookup_cleanedBody_none _ ?_
        intro e he
        simp only [List.mem_cons, List.not_mem_nil, or_false] at he
        rcases he with rfl | rfl | rfl | rfl | rfl | rfl | rfl | rfl | rfl <;> simp

/-- Witness for C10: the body sent for `sampleForm` carries the mapped range
budget and the joined dates string. -/
theorem handleSubmit_body_spec_witness :
    (cleanedBody (submitEntries PlanMode.discover sampleForm (some 3500))).lookup "budget"
      = some (JVal.num 3500)
    ∧ (cleanedBody (submitEntries PlanMode.discover sampleForm (some 3500))).lookup "dates"
      = some (JVal.str ("2024-06-15" ++ " to " ++ "2024-06-22")) := by
  have h := handleSubmit_body_spec (fun _ => 0) PlanMode.discover sampleForm
    (cleanedBody (submitEntries PlanMode.discover sampleForm (some 3500))) rfl
  exact ⟨h.2.2.2.2.1 3500 rfl rfl, h.2.1 ⟨by decide, by decide⟩⟩

end TravelMind
